import Mathlib

set_option maxHeartbeats 1600000

namespace BRO

/-- Compilation context: the fixed frame layout of one function compilation,
given by the declared parameter count and local count.  The unit tests use
`Initialize(3, 1)` (three parameters, one local) for the optimization tests
and `Initialize(1, 1)` for the pass-through tests. -/
structure Ctx where
  paramCount : Nat
  localCount : Nat
deriving DecidableEq, Repr

/-- A register descriptor: a parameter slot, a local slot, a dynamically
allocated temporary slot, or the distinguished accumulator pseudo-register
(which is not addressable as an operand register). -/
inductive Reg where
  | acc : Reg
  | param : Nat → Reg
  | loc : Nat → Reg
  | temp : Nat → Reg
deriving DecidableEq, Repr

/-- Modelled from the spec: the register index layout of the missing
`Register` class (`bytecode-register-allocator.h` is not part of the source
excerpt).  Parameters live at negative indices below the frame, locals at
`0..N-1`, temporaries beyond the locals; the accumulator sits at a special
index below all parameters. -/
def Reg.index (ctx : Ctx) : Reg → Int
  | Reg.acc => -(ctx.paramCount : Int) - 1
  | Reg.param i => (i : Int) - (ctx.paramCount : Int)
  | Reg.loc i => (i : Int)
  | Reg.temp i => (ctx.localCount : Int) + (i : Int)

/-- The raw operand word encoding a register (`Register::ToOperand`).  The
encoding is the register index; it is injective on the operand-addressable
registers of one frame. -/
def Reg.toOperand (ctx : Ctx) (r : Reg) : Int := Reg.index ctx r

/-- Inverse of `Reg.toOperand` on operand-addressable registers: negative
words are parameter slots, words below the local count are locals, the rest
are temporaries. -/
def decodeReg (ctx : Ctx) (w : Int) : Reg :=
  if w < 0 then Reg.param (w + ctx.paramCount).toNat
  else if w < ctx.localCount then Reg.loc w.toNat
  else Reg.temp (w.toNat - ctx.localCount)

/-- Temporary (scratch) registers are the non-observable ones. -/
def Reg.isTemporaryReg : Reg → Bool
  | Reg.temp _ => true
  | _ => false

/-- Observable registers are parameters and locals: writes to them must be
materialized immediately. -/
def Reg.isObservable : Reg → Bool
  | Reg.param _ => true
  | Reg.loc _ => true
  | _ => false

/-- Source code position information (`BytecodeSourceInfo` of
`bytecode-pipeline.h`): a source position (`-1` meaning uninitialized) and a
statement-boundary flag. -/
structure SourceInfo where
  pos : Int
  stFlag : Bool
deriving DecidableEq, Repr

/-- `kUninitializedPosition`-based validity test (`BytecodeSourceInfo::is_valid`). -/
def SourceInfo.valid (si : SourceInfo) : Bool := !(si.pos == -1)

/-- `BytecodeSourceInfo::is_statement`: valid and flagged as a statement. -/
def SourceInfo.statementQ (si : SourceInfo) : Bool := si.valid && si.stFlag

/-- The unset source-position tag. -/
def invalidSI : SourceInfo := { pos := -1, stFlag := false }

/-- Modelled from the spec: `BytecodeSourceInfo::Update` (declared in
`bytecode-pipeline.h`; its definition lives in the missing
`bytecode-pipeline.cc`).  An unset tag adopts the incoming tag
unconditionally; between two set tags a statement-boundary marking is never
dropped (an expression tag is upgraded by an incoming statement tag), and
the position favors the earliest-known position carrying the surviving
statement marking (the current one is kept otherwise). -/
def SourceInfo.update (cur entry : SourceInfo) : SourceInfo :=
  if cur.valid = false then entry
  else if entry.statementQ && !cur.statementQ then entry
  else cur

/-- The opcodes exercised by the optimizer and its unit tests.  The full
opcode table is an external fixed lookup service per the spec; only the
opcodes appearing in the source excerpt are modelled. -/
inductive Bytecode where
  | Illegal : Bytecode
  | Nop : Bytecode
  | Add : Bytecode
  | Ldar : Bytecode
  | Star : Bytecode
  | Mov : Bytecode
  | Return : Bytecode
  | LdaSmi : Bytecode
  | CallJSRuntime : Bytecode
deriving DecidableEq, Repr

/-- Operand interpretation classes for the modelled opcodes. -/
inductive OpTy where
  | imm : OpTy
  | reg : OpTy
  | maybeReg : OpTy
  | regCount : OpTy
deriving DecidableEq, Repr

/-- Modelled from the spec: `Bytecodes::GetOperandTypes` for the modelled
opcodes (the opcode table is out of scope of the source excerpt).  A
`maybeReg` operand names the start of a register range whose length is the
following `regCount` operand. -/
def opTypes : Bytecode → List OpTy
  | Bytecode.Add => [OpTy.reg]
  | Bytecode.Ldar => [OpTy.reg]
  | Bytecode.Star => [OpTy.reg]
  | Bytecode.Mov => [OpTy.reg, OpTy.reg]
  | Bytecode.LdaSmi => [OpTy.imm]
  | Bytecode.CallJSRuntime => [OpTy.imm, OpTy.maybeReg, OpTy.regCount]
  | _ => []

/-- Modelled from the spec: `Bytecodes::NumberOfOperands` for the modelled
opcodes. -/
def numberOfOperands (b : Bytecode) : Nat := (opTypes b).length

/-- Modelled from the spec: which modelled opcodes read the accumulator. -/
def readsAcc : Bytecode → Bool
  | Bytecode.Add => true
  | Bytecode.Star => true
  | Bytecode.Return => true
  | _ => false

/-- Modelled from the spec: which modelled opcodes write the accumulator. -/
def writesAcc : Bytecode → Bool
  | Bytecode.Add => true
  | Bytecode.Ldar => true
  | Bytecode.LdaSmi => true
  | Bytecode.CallJSRuntime => true
  | _ => false

/-- A bytecode instruction node (`BytecodeNode` of `bytecode-pipeline.h`):
opcode, raw operand words, the shared operand-width scale (1, 2 or 4 bytes
per operand) and an attached source-position tag. -/
structure Node where
  bytecode : Bytecode
  operands : List Int
  scale : Nat
  sourceInfo : SourceInfo
deriving DecidableEq, Repr

/-- `BytecodeNode::operand(i)`: the `DCHECK_LT(i, operand_count())` contract
violation is modelled as `none`; a valid index returns the stored word. -/
def Node.operand (n : Node) (i : Nat) : Option Int :=
  if i < numberOfOperands n.bytecode then some (n.operands.getD i 0) else none

/-- The smallest operand scale able to encode one signed operand word. -/
def scaleForInt (w : Int) : Nat :=
  if -128 ≤ w ∧ w ≤ 127 then 1
  else if -32768 ≤ w ∧ w ≤ 32767 then 2
  else 4

/-- The per-node operand scale: the smallest scale fitting the largest
operand present. -/
def scaleForOps (ws : List Int) : Nat :=
  ws.foldl (fun a w => max a (scaleForInt w)) 1

/-- Modelled from the spec: `BytecodeNode::Size` — serialized size of one
node: a wide/extra-wide prefix byte when scaled, the opcode byte, and one
scaled slot per declared operand. -/
def nodeSize (n : Node) : Nat :=
  (if n.scale = 1 then 0 else 1) + 1 + numberOfOperands n.bytecode * n.scale

/-- Cumulative serialized size of a forwarded stream. -/
def cumulativeSize (l : List Node) : Nat := (l.map nodeSize).sum

/-- One equivalence class, kept in ring order: the list `[r₀, r₁, …]`
stands for the circular successor chain `r₀ → r₁ → … → r₀` of the
union-find-like structure the spec describes, with a materialized flag per
member. -/
abbrev RegRing := List (Reg × Bool)

/-- The optimizer state: the live equivalence classes, the stream forwarded
downstream so far, and the downstream stage's flush call counters (the next
pipeline stage is modelled together with the optimizer: `out` is what the
downstream stage has received). -/
structure OptState where
  classes : List RegRing
  out : List Node
  ffoCount : Nat
  fbbCount : Nat
deriving DecidableEq, Repr

def ringHas (c : RegRing) (r : Reg) : Bool := c.any (fun p => p.1 == r)

def ringKeys (c : RegRing) : List Reg := c.map Prod.fst

/-- The equivalence class a register currently belongs to (empty when it
belongs to none). -/
def classOf (s : OptState) (r : Reg) : RegRing :=
  (s.classes.find? (fun c => ringHas c r)).getD []

/-- The materialized flag of a register (false when it is tracked nowhere). -/
def matOf (s : OptState) (r : Reg) : Bool :=
  match (classOf s r).find? (fun p => p.1 == r) with
  | some p => p.2
  | none => false

def inClasses (s : OptState) (r : Reg) : Bool := s.classes.any (fun c => ringHas c r)

def sameSet (s : OptState) (a b : Reg) : Bool := ringHas (classOf s a) b

/-- Rotate a ring so that the walk starts at `r` (the successor chain from
`r`, as the doubly-linked equivalence ring is traversed). -/
def rotateTo (c : RegRing) (r : Reg) : RegRing :=
  match c.findIdx? (fun p => p.1 == r) with
  | some i => c.drop i ++ c.take i
  | none => c

/-- Set the materialized flag of one register in place. -/
def setMatRing (c : RegRing) (r : Reg) (b : Bool) : RegRing :=
  c.map (fun p => if p.1 == r then (p.1, b) else p)

def setMat (s : OptState) (r : Reg) (b : Bool) : OptState :=
  { s with classes := s.classes.map (fun c => if ringHas c r then setMatRing c r b else c) }

/-- Remove a register from whatever class holds it, dropping classes that
become empty. -/
def removeReg (s : OptState) (r : Reg) : OptState :=
  let cs := (s.classes.map (fun c => c.filter (fun p => !(p.1 == r)))).filter (fun c => !c.isEmpty)
  { s with classes := cs }

/-- Insert `(r, b)` immediately after `anchor` in a ring
(`RegisterInfo::AddToEquivalenceSetOf` links the newcomer right after the
anchor in the successor chain). -/
def insertAfter (c : RegRing) (anchor r : Reg) (b : Bool) : RegRing :=
  match c.findIdx? (fun p => p.1 == anchor) with
  | some i => c.take (i + 1) ++ [(r, b)] ++ c.drop (i + 1)
  | none => c

/-- `r` joins the equivalence set of `anchor`, unmaterialized, placed right
after the anchor in ring order. -/
def addToSetOf (s : OptState) (anchor r : Reg) : OptState :=
  let s' := removeReg s r
  { s' with classes :=
      s'.classes.map (fun c => if ringHas c anchor then insertAfter c anchor r false else c) }

/-- `RegisterInfo::MoveToNewEquivalenceSet`: leave the current ring and
become a fresh singleton class. -/
def moveToNewSet (s : OptState) (r : Reg) (b : Bool) : OptState :=
  let s' := removeReg s r
  { s' with classes := s'.classes ++ [[(r, b)]] }

/-- First materialized member reached when walking the ring starting at `r`
itself (`RegisterInfo::GetMaterializedEquivalent`). -/
def getMatEquiv (s : OptState) (r : Reg) : Option Reg :=
  ((rotateTo (classOf s r) r).find? (fun p => p.2)).map Prod.fst

def lowestIndexReg (ctx : Ctx) (l : List Reg) : Option Reg :=
  l.foldl
    (fun a r =>
      match a with
      | none => some r
      | some b => if Reg.index ctx r < Reg.index ctx b then some r else some b)
    none

/-- Modelled from the spec: `RegisterInfo::GetEquivalentToMaterialize` of
the missing `bytecode-register-optimizer.cc`.  If another member of the
ring is already materialized nothing needs saving (`none`); otherwise the
pending member with the lowest register index is the candidate. -/
def getEquivToMaterialize (ctx : Ctx) (s : OptState) (r : Reg) : Option Reg :=
  let others := (rotateTo (classOf s r) r).drop 1
  if others.any (fun p => p.2) then none
  else lowestIndexReg ctx (others.map Prod.fst)

/-- The fused transfer instruction moving `src`'s value into `dst`: a Star
when the source is the accumulator, an Ldar when the destination is, a Mov
otherwise; the operand scale is recomputed from the new operand set. -/
def transferNode (ctx : Ctx) (src dst : Reg) (si : SourceInfo) : Node :=
  if src == Reg.acc then
    { bytecode := Bytecode.Star, operands := [Reg.toOperand ctx dst],
      scale := scaleForOps [Reg.toOperand ctx dst], sourceInfo := si }
  else if dst == Reg.acc then
    { bytecode := Bytecode.Ldar, operands := [Reg.toOperand ctx src],
      scale := scaleForOps [Reg.toOperand ctx src], sourceInfo := si }
  else
    { bytecode := Bytecode.Mov,
      operands := [Reg.toOperand ctx src, Reg.toOperand ctx dst],
      scale := scaleForOps [Reg.toOperand ctx src, Reg.toOperand ctx dst],
      sourceInfo := si }

/-- Forward a register transfer downstream and mark the destination
materialized (`BytecodeRegisterOptimizer::OutputRegisterTransfer`). -/
def outputTransfer (ctx : Ctx) (s : OptState) (src dst : Reg) (si : SourceInfo) : OptState :=
  let s1 := setMat s dst true
  { s1 with out := s1.out ++ [transferNode ctx src dst si] }

/-- Modelled from the spec: before a materialized register leaves its ring
its value is saved into a pending member when it was the only materialized
one (`CreateMaterializedEquivalent`); required for semantic equivalence of
the forwarded stream. -/
def createMatEquiv (ctx : Ctx) (s : OptState) (r : Reg) : OptState :=
  match getEquivToMaterialize ctx s r with
  | some u => outputTransfer ctx s r u invalidSI
  | none => s

/-- Materialize one register from a materialized member of its ring when it
is still pending (`BytecodeRegisterOptimizer::Materialize`). -/
def materializeReg (ctx : Ctx) (s : OptState) (r : Reg) : OptState :=
  if matOf s r then s
  else
    match getMatEquiv s r with
    | some src => outputTransfer ctx s src r invalidSI
    | none => s

/-- Emit the transfer for an observable destination: fuse from the first
materialized member of the input's equivalence walk. -/
def starFinish (ctx : Ctx) (s3 : OptState) (input output : Reg) (si : SourceInfo) : OptState :=
  match getMatEquiv s3 input with
  | some src => outputTransfer ctx s3 src output si
  | none => s3

/-- Modelled from the spec: the heart of the missing optimizer
(`BytecodeRegisterOptimizer::RegisterTransfer`).  A load, store or move is
turned into equivalence-class bookkeeping: the destination's old value is
saved if needed, the destination joins the source's class, and only a
transfer to an observable register is emitted immediately — fused from a
materialized equivalent of the source. -/
def registerTransfer (ctx : Ctx) (s : OptState) (input output : Reg) (si : SourceInfo) : OptState :=
  let s1 := if matOf s output then createMatEquiv ctx s output else s
  let s2 := if sameSet s1 input output then s1 else addToSetOf s1 input output
  if Reg.isObservable output then starFinish ctx (setMat s2 output false) input output si
  else s2

/-- Modelled from the spec: resolve a single-register read operand through
its equivalence class — keep it when already materialized, otherwise pick a
materialized member other than the accumulator, preferring a non-temporary
member; `none` means the operand register itself must be materialized
first. -/
def matOthersNotAcc (s : OptState) (r : Reg) : List Reg :=
  (((rotateTo (classOf s r) r).filter (fun p => p.2)).map Prod.fst).filter
    (fun x => !(x == Reg.acc))

def getSubstituteReg (s : OptState) (r : Reg) : Option Reg :=
  if matOf s r then some r
  else
    match (matOthersNotAcc s r).find? (fun x => !(Reg.isTemporaryReg x)) with
    | some m => some m
    | none => (matOthersNotAcc s r).head?

/-- Rewrite operand `i` in place to reference `m`, recomputing the node's
operand scale to cover the new operand word. -/
def rewriteOperand (ctx : Ctx) (n : Node) (i : Nat) (m : Reg) : Node :=
  { n with operands := n.operands.set i (Reg.toOperand ctx m),
           scale := max n.scale (scaleForInt (Reg.toOperand ctx m)) }

/-- Prepare one single-register read operand: substitute through the
class when possible, otherwise materialize the register itself. -/
def prepRegInput (ctx : Ctx) (s : OptState) (n : Node) (i : Nat) : OptState × Node :=
  let r := decodeReg ctx (n.operands.getD i 0)
  match getSubstituteReg s r with
  | some m => (s, rewriteOperand ctx n i m)
  | none => (materializeReg ctx s r, n)

/-- Modelled from the spec: a register-range operand forces every slot of
the range to its precise pending value, with no operand substitution; the
flush walks the slots in range-slot order (lowest slot first), which is
not necessarily the original program order of the deferred writes. -/
def prepareRange (ctx : Ctx) (s : OptState) (start : Reg) (count : Nat) : OptState :=
  (List.range count).foldl
    (fun st k => materializeReg ctx st (decodeReg ctx (Reg.toOperand ctx start + Int.ofNat k)))
    s

/-- Walk the operand list of a general operation: single-register read
operands are substituted, register-range operands (a `maybeReg` start whose
following `regCount` operand is at least 2) are fully materialized. -/
def prepOps (ctx : Ctx) : OptState → Node → List (Nat × OpTy) → OptState × Node
  | s, n, [] => (s, n)
  | s, n, (i, OpTy.reg) :: rest =>
      let p := prepRegInput ctx s n i
      prepOps ctx p.1 p.2 rest
  | s, n, (i, OpTy.maybeReg) :: rest =>
      let c := (n.operands.getD (i + 1) 0).toNat
      if c == 0 then prepOps ctx s n rest
      else if c == 1 then
        let p := prepRegInput ctx s n i
        prepOps ctx p.1 p.2 rest
      else prepOps ctx (prepareRange ctx s (decodeReg ctx (n.operands.getD i 0)) c) n rest
  | s, n, (_, OpTy.imm) :: rest => prepOps ctx s n rest
  | s, n, (_, OpTy.regCount) :: rest => prepOps ctx s n rest

/-- An opcode that writes the accumulator gives it a fresh, materialized
singleton class; its old class first saves its value if the accumulator was
its only materialized member. -/
def prepareOutputReg (ctx : Ctx) (s : OptState) (r : Reg) : OptState :=
  moveToNewSet (if matOf s r then createMatEquiv ctx s r else s) r true

/-- Modelled from the spec: the missing optimizer's
`BytecodePipelineStage::Write`.  Loads, stores and moves become deferred
register transfers; any other operation first materializes the accumulator
if it reads it, prepares its register operands, renews the accumulator's
class if it writes it, and is then forwarded downstream. -/
def write (ctx : Ctx) (s : OptState) (n : Node) : OptState :=
  match n.bytecode with
  | Bytecode.Ldar =>
      registerTransfer ctx s (decodeReg ctx (n.operands.getD 0 0)) Reg.acc n.sourceInfo
  | Bytecode.Star =>
      registerTransfer ctx s Reg.acc (decodeReg ctx (n.operands.getD 0 0)) n.sourceInfo
  | Bytecode.Mov =>
      registerTransfer ctx s (decodeReg ctx (n.operands.getD 0 0))
        (decodeReg ctx (n.operands.getD 1 0)) n.sourceInfo
  | _ =>
      let s1 := if readsAcc n.bytecode then materializeReg ctx s Reg.acc else s
      let p := prepOps ctx s1 n (opTypes n.bytecode).enum
      let s3 := if writesAcc n.bytecode then prepareOutputReg ctx p.1 Reg.acc else p.1
      { s3 with out := s3.out ++ [p.2] }

/-- The members of non-singleton classes: what a flush must force. -/
def pendingRegs (s : OptState) : List Reg :=
  s.classes.foldr (fun c acc => if c.length ≤ 1 then acc else c.map Prod.fst ++ acc) []

/-- Break every non-singleton class into fresh materialized singletons. -/
def splitClasses (s : OptState) : OptState :=
  let cs := s.classes.foldr
    (fun c acc => (if c.length ≤ 1 then [c] else c.map (fun p => [(p.1, true)])) ++ acc) []
  { s with classes := cs }

/-- Modelled from the spec: the missing optimizer's flush — materialize
every member of a live multi-member class, then clear every equivalence
relationship. -/
def flushState (ctx : Ctx) (s : OptState) : OptState :=
  splitClasses ((pendingRegs s).foldl (materializeReg ctx) s)

/-- The optimizer's `FlushForOffset`: flush, then delegate to the
downstream stage exactly once; the downstream stage (modelled per the
pipeline contract) reports the cumulative serialized size of everything it
has received. -/
def flushForOffset (ctx : Ctx) (s : OptState) : Nat × OptState :=
  let s1 := flushState ctx s
  let s2 := { s1 with ffoCount := s1.ffoCount + 1 }
  (cumulativeSize s2.out, s2)

/-- The optimizer's `FlushBasicBlock`: flush, then delegate downstream
exactly once. -/
def flushBasicBlock (ctx : Ctx) (s : OptState) : OptState :=
  let s1 := flushState ctx s
  { s1 with fbbCount := s1.fbbCount + 1 }

/-- `TemporaryRegisterAllocateEvent`: a freshly borrowed temporary becomes
a fresh singleton class. -/
def allocTempReg (s : OptState) (i : Nat) : OptState :=
  if inClasses s (Reg.temp i) then s else moveToNewSet s (Reg.temp i) true

/-- Modelled from the spec: `TemporaryRegisterFreeEvent` — killing a
temporary saves its value into a pending equivalent only when it was the
sole materialized member of its ring, then drops it; a pending
(unmaterialized) write on it is discarded with no emission. -/
def freeTempReg (ctx : Ctx) (s : OptState) (r : Reg) : OptState :=
  if inClasses s r then removeReg (if matOf s r then createMatEquiv ctx s r else s) r
  else s

/-- The events the front-end drives the optimizer with. -/
inductive Ev where
  | write : Node → Ev
  | alloc : Nat → Ev
  | free : Nat → Ev
deriving DecidableEq, Repr

def stepEv (ctx : Ctx) (s : OptState) : Ev → OptState
  | Ev.write n => write ctx s n
  | Ev.alloc i => allocTempReg s i
  | Ev.free i => freeTempReg ctx s (Reg.temp i)

/-- The initial optimizer state: accumulator, parameters and locals each in
their own materialized singleton class (callers guarantee their contents). -/
def initState (ctx : Ctx) : OptState :=
  { classes :=
      [[(Reg.acc, true)]] ++
        (List.range ctx.paramCount).map (fun i => [(Reg.param i, true)]) ++
        (List.range ctx.localCount).map (fun i => [(Reg.loc i, true)]),
    out := [], ffoCount := 0, fbbCount := 0 }

def run (ctx : Ctx) (evs : List Ev) : OptState := evs.foldl (stepEv ctx) (initState ctx)

/-- Front-end node constructors, as the unit tests build them. -/
def ldarNode (ctx : Ctx) (r : Reg) : Node :=
  { bytecode := Bytecode.Ldar, operands := [Reg.toOperand ctx r], scale := 1,
    sourceInfo := invalidSI }

def starNode (ctx : Ctx) (r : Reg) : Node :=
  { bytecode := Bytecode.Star, operands := [Reg.toOperand ctx r], scale := 1,
    sourceInfo := invalidSI }

def movNodeC (ctx : Ctx) (a b : Reg) : Node :=
  { bytecode := Bytecode.Mov,
    operands := [Reg.toOperand ctx a, Reg.toOperand ctx b], scale := 1,
    sourceInfo := invalidSI }

def returnNode : Node :=
  { bytecode := Bytecode.Return, operands := [], scale := 1, sourceInfo := invalidSI }

def ldaSmiNode (v : Int) : Node :=
  { bytecode := Bytecode.LdaSmi, operands := [v], scale := 1, sourceInfo := invalidSI }

def callNode (ctx : Ctx) (id : Int) (arg : Reg) (argc : Int) : Node :=
  { bytecode := Bytecode.CallJSRuntime,
    operands := [id, Reg.toOperand ctx arg, argc], scale := 1, sourceInfo := invalidSI }

def addNode (ctx : Ctx) (r : Reg) (sc : Nat) : Node :=
  { bytecode := Bytecode.Add, operands := [Reg.toOperand ctx r], scale := sc,
    sourceInfo := invalidSI }

def nopNode : Node :=
  { bytecode := Bytecode.Nop, operands := [], scale := 1, sourceInfo := invalidSI }

/-- The three-parameter, one-local frame of the optimization unit tests. -/
def ctx31 : Ctx := { paramCount := 3, localCount := 1 }

/-- No pending equivalence state: every tracked register is materialized. -/
def noPending (s : OptState) : Prop := ∀ c ∈ s.classes, ∀ p ∈ c, p.2 = true

instance noPendingDecidable (s : OptState) : Decidable (noPending s) :=
  inferInstanceAs (Decidable (∀ c ∈ s.classes, ∀ p ∈ c, p.2 = true))

/-- All registers tracked across all classes, with multiplicity. -/
def allKeys (s : OptState) : List Reg := (s.classes.map ringKeys).flatten

/-- Structural well-formedness used by the general theorems: no register is
tracked twice (each register belongs to at most one equivalence class, once). -/
def WFkeys (s : OptState) : Prop := (allKeys s).Nodup

instance wfkeysDecidable (s : OptState) : Decidable (WFkeys s) :=
  inferInstanceAs (Decidable ((allKeys s).Nodup))

/-- Renewing the accumulator's class forwards nothing: either the
accumulator is pending, or its old ring needs no save. -/
def accOutSilent (ctx : Ctx) (s : OptState) : Bool :=
  !matOf s Reg.acc || (getEquivToMaterialize ctx s Reg.acc).isNone

/-- Event trace refuting the literal reading of the fused-move claim: the
accumulator load is from a pending temporary, so the fused move's source
must be a materialized equivalent instead. -/
def evsC1 : List Ev :=
  [Ev.alloc 0, Ev.write (ldarNode ctx31 (Reg.param 1)),
   Ev.write (starNode ctx31 (Reg.temp 0)), Ev.write (ldarNode ctx31 (Reg.temp 0)),
   Ev.write (starNode ctx31 (Reg.loc 0))]

/-- The dead-temporary scenario of the spec: load from parameter 1, store
to a temporary, kill the temporary, return. -/
def evsC2 : List Ev :=
  [Ev.alloc 0, Ev.write (ldarNode ctx31 (Reg.param 1)),
   Ev.write (starNode ctx31 (Reg.temp 0)), Ev.free 0, Ev.write returnNode]

/-- The two redundant moves preceding the single-argument call of the
substitution scenario. -/
def evsC3 : List Ev :=
  [Ev.alloc 0, Ev.alloc 1, Ev.write (movNodeC ctx31 (Reg.param 1) (Reg.temp 0)),
   Ev.write (movNodeC ctx31 (Reg.param 1) (Reg.temp 1))]

/-- The prefix of the register-range scenario: immediate load, deferred
store to temporary 0, deferred move into temporary 1. -/
def evsC4 : List Ev :=
  [Ev.alloc 0, Ev.alloc 1, Ev.write (ldaSmiNode 3),
   Ev.write (starNode ctx31 (Reg.temp 0)),
   Ev.write (movNodeC ctx31 (Reg.param 1) (Reg.temp 1))]

/-- Range scenario with the deferred writes in the opposite order of the
range slots: the move into temporary 1 is written before the store into
temporary 0, so range-slot order and program order disagree. -/
def evsC4x : List Ev :=
  [Ev.alloc 0, Ev.alloc 1, Ev.write (movNodeC ctx31 (Reg.param 1) (Reg.temp 1)),
   Ev.write (ldaSmiNode 3), Ev.write (starNode ctx31 (Reg.temp 0)),
   Ev.write (callNode ctx31 0 (Reg.temp 0) 2)]

/-- The fused store-to-local scenario: load from parameter 1, store to
local 0, return. -/
def evsC5 : List Ev :=
  [Ev.write (ldarNode ctx31 (Reg.param 1)), Ev.write (starNode ctx31 (Reg.loc 0)),
   Ev.write returnNode]

/-- Flag-monotone refinement between two rings with identical key layout:
same registers in the same ring order, materialized flags only ever raised. -/
def RingLE (c d : RegRing) : Prop :=
  List.Forall₂ (fun p q => p.1 = q.1 ∧ (p.2 = true → q.2 = true)) c d

/-- Flag-monotone refinement between two optimizer states: identical class
layout, materialized flags only ever raised. -/
def StateLE (s s' : OptState) : Prop := List.Forall₂ RingLE s.classes s'.classes

/-! ### Basic bookkeeping lemmas -/

theorem setMat_out (s : OptState) (r : Reg) (b : Bool) : (setMat s r b).out = s.out := rfl

theorem removeReg_out (s : OptState) (r : Reg) : (removeReg s r).out = s.out := rfl

theorem moveToNewSet_out (s : OptState) (r : Reg) (b : Bool) :
    (moveToNewSet s r b).out = s.out := rfl

theorem addToSetOf_out (s : OptState) (anchor r : Reg) :
    (addToSetOf s anchor r).out = s.out := rfl

theorem outputTransfer_out (ctx : Ctx) (s : OptState) (a b : Reg) (si : SourceInfo) :
    (outputTransfer ctx s a b si).out = s.out ++ [transferNode ctx a b si] := rfl

theorem outputTransfer_ffo (ctx : Ctx) (s : OptState) (a b : Reg) (si : SourceInfo) :
    (outputTransfer ctx s a b si).ffoCount = s.ffoCount := rfl

theorem outputTransfer_fbb (ctx : Ctx) (s : OptState) (a b : Reg) (si : SourceInfo) :
    (outputTransfer ctx s a b si).fbbCount = s.fbbCount := rfl

theorem materializeReg_ffo (ctx : Ctx) (s : OptState) (r : Reg) :
    (materializeReg ctx s r).ffoCount = s.ffoCount := by
  unfold materializeReg
  split
  · rfl
  · split <;> rfl

theorem materializeReg_fbb (ctx : Ctx) (s : OptState) (r : Reg) :
    (materializeReg ctx s r).fbbCount = s.fbbCount := by
  unfold materializeReg
  split
  · rfl
  · split <;> rfl

theorem foldl_materializeReg_ffo (ctx : Ctx) (l : List Reg) :
    ∀ s : OptState, (l.foldl (materializeReg ctx) s).ffoCount = s.ffoCount := by
  induction l with
  | nil => intro s; rfl
  | cons a l ih => intro s; rw [List.foldl_cons, ih, materializeReg_ffo]

theorem foldl_materializeReg_fbb (ctx : Ctx) (l : List Reg) :
    ∀ s : OptState, (l.foldl (materializeReg ctx) s).fbbCount = s.fbbCount := by
  induction l with
  | nil => intro s; rfl
  | cons a l ih => intro s; rw [List.foldl_cons, ih, materializeReg_fbb]

theorem splitClasses_out (s : OptState) : (splitClasses s).out = s.out := rfl

theorem splitClasses_ffo (s : OptState) : (splitClasses s).ffoCount = s.ffoCount := rfl

theorem splitClasses_fbb (s : OptState) : (splitClasses s).fbbCount = s.fbbCount := rfl

theorem splitClasses_classes (s : OptState) :
    (splitClasses s).classes =
      s.classes.foldr
        (fun c acc => (if c.length ≤ 1 then [c] else c.map (fun p => [(p.1, true)])) ++ acc)
        [] := rfl

theorem flushState_ffo (ctx : Ctx) (s : OptState) :
    (flushState ctx s).ffoCount = s.ffoCount := by
  unfold flushState
  rw [splitClasses_ffo, foldl_materializeReg_ffo]

theorem flushState_fbb (ctx : Ctx) (s : OptState) :
    (flushState ctx s).fbbCount = s.fbbCount := by
  unfold flushState
  rw [splitClasses_fbb, foldl_materializeReg_fbb]

theorem mem_foldr_append {α β : Type} (g : α → List β) (l : List α) (x : β) :
    (x ∈ l.foldr (fun c acc => g c ++ acc) []) ↔ ∃ c ∈ l, x ∈ g c := by
  induction l with
  | nil => simp
  | cons a l ih => simp [List.foldr_cons, List.mem_append, ih]

theorem splitClasses_small (s : OptState) :
    ∀ c ∈ (splitClasses s).classes, c.length ≤ 1 := by
  intro c hc
  rw [splitClasses_classes, mem_foldr_append] at hc
  obtain ⟨c₀, _, hmem⟩ := hc
  by_cases hl : c₀.length ≤ 1
  · rw [if_pos hl] at hmem
    have : c = c₀ := by simpa using hmem
    subst this
    exact hl
  · rw [if_neg hl] at hmem
    obtain ⟨p, _, rfl⟩ := List.mem_map.mp hmem
    simp

theorem foldr_pending_nil (l : List RegRing) (h : ∀ c ∈ l, c.length ≤ 1) :
    l.foldr (fun c acc => if c.length ≤ 1 then acc else c.map Prod.fst ++ acc) [] = [] := by
  induction l with
  | nil => rfl
  | cons a l ih =>
      rw [List.foldr_cons, if_pos (h a (List.mem_cons_self a l))]
      exact ih fun c hc => h c (List.mem_cons_of_mem a hc)

theorem pendingRegs_nil {s : OptState} (h : ∀ c ∈ s.classes, c.length ≤ 1) :
    pendingRegs s = [] := foldr_pending_nil s.classes h

theorem materializeReg_noPending (ctx : Ctx) {s : OptState} (h : noPending s) (r : Reg) :
    materializeReg ctx s r = s := by
  cases hf : s.classes.find? (fun c => ringHas c r) with
  | none =>
      have hcl : classOf s r = [] := by rw [classOf, hf]; rfl
      have hm : matOf s r = false := by rw [matOf, hcl]; rfl
      have hg : getMatEquiv s r = none := by rw [getMatEquiv, hcl]; rfl
      unfold materializeReg
      simp [hm, hg]
  | some c =>
      have hcl : classOf s r = c := by rw [classOf, hf]; rfl
      have hc : ringHas c r = true := by
        have := List.find?_some hf
        simpa using this
      have hmem : c ∈ s.classes := List.mem_of_find?_eq_some hf
      have hex : ∃ p ∈ c, (p.1 == r) = true := by
        simpa [ringHas, List.any_eq_true] using hc
      have hfs : (c.find? (fun p => p.1 == r)).isSome = true := List.find?_isSome.mpr hex
      obtain ⟨q, hq⟩ := Option.isSome_iff_exists.mp hfs
      have hm : matOf s r = true := by
        rw [matOf, hcl, hq]
        exact h c hmem q (List.mem_of_find?_eq_some hq)
      unfold materializeReg
      simp [hm]

theorem foldl_materializeReg_noPending (ctx : Ctx) {s : OptState} (h : noPending s)
    (l : List Reg) : l.foldl (materializeReg ctx) s = s := by
  induction l with
  | nil => rfl
  | cons a l ih => rw [List.foldl_cons, materializeReg_noPending ctx h a, ih]

theorem flushState_noPending (ctx : Ctx) {s : OptState} (h : noPending s) :
    flushState ctx s = splitClasses s := by
  unfold flushState
  rw [foldl_materializeReg_noPending ctx h]

theorem flushState_small (ctx : Ctx) (s : OptState) :
    ∀ c ∈ (flushState ctx s).classes, c.length ≤ 1 := by
  unfold flushState
  exact splitClasses_small _

theorem flushState_out_of_small (ctx : Ctx) {s : OptState}
    (h : ∀ c ∈ s.classes, c.length ≤ 1) : (flushState ctx s).out = s.out := by
  unfold flushState
  rw [pendingRegs_nil h]
  rfl

/-! ### Flag-monotonicity machinery -/

theorem forall₂_refl_of {α : Type} {R : α → α → Prop} (h : ∀ a, R a a) :
    ∀ l : List α, List.Forall₂ R l l
  | [] => List.Forall₂.nil
  | a :: l => List.Forall₂.cons (h a) (forall₂_refl_of h l)

theorem forall₂_map_self {α : Type} {R : α → α → Prop} (f : α → α) (h : ∀ a, R a (f a)) :
    ∀ l : List α, List.Forall₂ R l (l.map f)
  | [] => List.Forall₂.nil
  | a :: l => List.Forall₂.cons (h a) (forall₂_map_self f h l)

theorem forall₂_trans_of {α : Type} {R : α → α → Prop}
    (hR : ∀ a b c, R a b → R b c → R a c) :
    ∀ {l₁ l₂ l₃ : List α}, List.Forall₂ R l₁ l₂ → List.Forall₂ R l₂ l₃ →
      List.Forall₂ R l₁ l₃ := by
  intro l₁ l₂ l₃ h1
  induction h1 generalizing l₃ with
  | nil => intro h2; cases h2; exact List.Forall₂.nil
  | cons hab h1 ih =>
      intro h2
      cases h2 with
      | cons hbc h2 => exact List.Forall₂.cons (hR _ _ _ hab hbc) (ih h2)

theorem forall₂_mem_right {α β : Type} {R : α → β → Prop} :
    ∀ {l : List α} {l' : List β}, List.Forall₂ R l l' → ∀ y ∈ l', ∃ x ∈ l, R x y := by
  intro l l' h
  induction h with
  | nil => intro y hy; exact absurd hy (List.not_mem_nil y)
  | @cons a b l₁ l₂ hab _ ih =>
      intro y hy
      rcases List.mem_cons.mp hy with rfl | h2
      · exact ⟨a, List.mem_cons_self a l₁, hab⟩
      · obtain ⟨x, hx, hR⟩ := ih y h2
        exact ⟨x, List.mem_cons_of_mem a hx, hR⟩

theorem ringLE_refl (c : RegRing) : RingLE c c :=
  forall₂_refl_of (fun _ => ⟨rfl, fun h => h⟩) c

theorem ringLE_trans {a b c : RegRing} (h1 : RingLE a b) (h2 : RingLE b c) : RingLE a c :=
  forall₂_trans_of (fun _ _ _ hpq hqr => ⟨hpq.1.trans hqr.1, fun hp => hqr.2 (hpq.2 hp)⟩) h1 h2

theorem stateLE_refl (s : OptState) : StateLE s s := forall₂_refl_of ringLE_refl s.classes

theorem stateLE_trans {s₁ s₂ s₃ : OptState} (h1 : StateLE s₁ s₂) (h2 : StateLE s₂ s₃) :
    StateLE s₁ s₃ := by
  unfold StateLE at h1 h2 ⊢
  exact @forall₂_trans_of RegRing RingLE (fun _ _ _ ha hb => ringLE_trans ha hb) _ _ _ h1 h2

theorem ringLE_setMatRing_true (c : RegRing) (r : Reg) : RingLE c (setMatRing c r true) := by
  induction c with
  | nil => exact List.Forall₂.nil
  | cons a l ih =>
      unfold setMatRing
      rw [List.map_cons]
      refine List.Forall₂.cons ?_ ih
      by_cases h : (a.1 == r) = true
      · rw [if_pos h]; exact ⟨rfl, fun _ => rfl⟩
      · rw [if_neg h]; exact ⟨rfl, fun hp => hp⟩

theorem stateLE_setMat_true (s : OptState) (r : Reg) : StateLE s (setMat s r true) := by
  show List.Forall₂ RingLE s.classes
    (s.classes.map (fun c => if ringHas c r then setMatRing c r true else c))
  refine forall₂_map_self _ ?_ s.classes
  intro c
  by_cases h : ringHas c r = true
  · rw [if_pos h]; exact ringLE_setMatRing_true c r
  · rw [if_neg h]; exact ringLE_refl c

theorem stateLE_outputTransfer (ctx : Ctx) (s : OptState) (a b : Reg) (si : SourceInfo) :
    StateLE s (outputTransfer ctx s a b si) := stateLE_setMat_true s b

theorem stateLE_materializeReg (ctx : Ctx) (s : OptState) (r : Reg) :
    StateLE s (materializeReg ctx s r) := by
  unfold materializeReg
  split
  · exact stateLE_refl s
  · split
    · exact stateLE_outputTransfer _ _ _ _ _
    · exact stateLE_refl s

theorem stateLE_foldl (ctx : Ctx) (l : List Reg) :
    ∀ s : OptState, StateLE s (l.foldl (materializeReg ctx) s) := by
  induction l with
  | nil => intro s; exact stateLE_refl s
  | cons a l ih =>
      intro s
      exact stateLE_trans (stateLE_materializeReg ctx s a) (ih _)

/-! ### Class lookup and materialization lemmas -/

theorem ringHas_setMatRing (c : RegRing) (r x : Reg) (b : Bool) :
    ringHas (setMatRing c r b) x = ringHas c x := by
  unfold ringHas setMatRing
  rw [List.any_map]
  congr 1
  funext p
  by_cases h : (p.1 == r) = true
  · rw [Function.comp_apply, if_pos h]
  · rw [Function.comp_apply, if_neg h]

theorem find?_map_of_pred {α β : Type} (g : α → β) (p : α → Bool) (q : β → Bool)
    (h : ∀ a, q (g a) = p a) (l : List α) : (l.map g).find? q = (l.find? p).map g := by
  induction l with
  | nil => rfl
  | cons a l ih =>
      rw [List.map_cons]
      by_cases hp : p a = true
      · rw [List.find?_cons_of_pos _ (by rw [h]; exact hp), List.find?_cons_of_pos _ hp]
        rfl
      · rw [List.find?_cons_of_neg _ (by rw [h]; exact hp), List.find?_cons_of_neg _ hp, ih]

theorem classOf_setMat (s : OptState) (r x : Reg) (b : Bool) :
    classOf (setMat s r b) x =
      ((s.classes.find? (fun c => ringHas c x)).map
        (fun c => if ringHas c r then setMatRing c r b else c)).getD [] := by
  unfold classOf setMat
  congr 1
  refine find?_map_of_pred _ _ _ (fun c => ?_) s.classes
  by_cases h : ringHas c r = true
  · rw [if_pos h, ringHas_setMatRing]
  · rw [if_neg h]

theorem setMatRing_cons (a : Reg × Bool) (tl : RegRing) (r : Reg) (b : Bool) :
    setMatRing (a :: tl) r b =
      (if (a.1 == r) = true then (a.1, b) else a) :: setMatRing tl r b := rfl

theorem find?_setMatRing_self (c : RegRing) (r : Reg) (b : Bool) (h : ringHas c r = true) :
    ∃ p, (setMatRing c r b).find? (fun p => p.1 == r) = some p ∧ p.2 = b := by
  induction c with
  | nil => simp [ringHas] at h
  | cons a tl ih =>
      rw [setMatRing_cons]
      by_cases ha : (a.1 == r) = true
      · rw [if_pos ha]
        exact ⟨(a.1, b), List.find?_cons_of_pos _ ha, rfl⟩
      · rw [if_neg ha]
        have h' : ringHas tl r = true := by
          unfold ringHas at h ⊢
          obtain ⟨p, hp, hpr⟩ := List.any_eq_true.mp h
          rcases List.mem_cons.mp hp with rfl | hp'
          · exact absurd hpr ha
          · exact List.any_eq_true.mpr ⟨p, hp', hpr⟩
        obtain ⟨p, hp, hb⟩ := ih h'
        refine ⟨p, ?_, hb⟩
        have hstep : List.find? (fun p : Reg × Bool => p.1 == r) (a :: setMatRing tl r b) =
            List.find? (fun p : Reg × Bool => p.1 == r) (setMatRing tl r b) :=
          List.find?_cons_of_neg _ ha
        rw [hstep, hp]

theorem matOf_setMat_true_self (s : OptState) (r : Reg)
    (h : ringHas (classOf s r) r = true) : matOf (setMat s r true) r = true := by
  cases hf : s.classes.find? (fun c => ringHas c r) with
  | none =>
      rw [classOf, hf] at h
      simp [ringHas] at h
  | some c =>
      have hrc : ringHas c r = true := by rw [classOf, hf] at h; simpa using h
      rw [matOf, classOf_setMat, hf]
      simp only [Option.map_some', Option.getD_some]
      rw [if_pos hrc]
      obtain ⟨p, hp, hb⟩ := find?_setMatRing_self c r true hrc
      rw [hp]
      exact hb

theorem ringHas_classOf (s : OptState) (r : Reg) (h : classOf s r ≠ []) :
    ringHas (classOf s r) r = true := by
  cases hf : s.classes.find? (fun c => ringHas c r) with
  | none => rw [classOf, hf] at h; simp at h
  | some c =>
      have hc := List.find?_some hf
      rw [classOf, hf]
      simpa using hc

theorem perm_rotateTo (c : RegRing) (r : Reg) : (rotateTo c r).Perm c := by
  unfold rotateTo
  cases hf : c.findIdx? (fun p => p.1 == r) with
  | none => exact List.Perm.refl c
  | some i =>
      refine List.Perm.trans List.perm_append_comm ?_
      rw [List.take_append_drop]

theorem matOf_outputTransfer (ctx : Ctx) (s : OptState) (a b x : Reg) (si : SourceInfo) :
    matOf (outputTransfer ctx s a b si) x = matOf (setMat s b true) x := rfl

theorem materializeReg_makes_mat (ctx : Ctx) (s : OptState) (r : Reg)
    (h : (classOf s r).any (fun p => p.2) = true) :
    matOf (materializeReg ctx s r) r = true := by
  by_cases hm : matOf s r = true
  · unfold materializeReg
    rw [if_pos hm]
    exact hm
  · have hne : classOf s r ≠ [] := by
      intro hnil
      rw [hnil] at h
      simp at h
    have hrh : ringHas (classOf s r) r = true := ringHas_classOf s r hne
    unfold materializeReg
    rw [if_neg hm]
    cases hg : getMatEquiv s r with
    | none =>
        exfalso
        unfold getMatEquiv at hg
        rw [Option.map_eq_none'] at hg
        have hall := List.find?_eq_none.mp hg
        obtain ⟨p, hp, h2⟩ := List.any_eq_true.mp h
        exact hall p ((perm_rotateTo (classOf s r) r).mem_iff.mpr hp) h2
    | some src =>
        show matOf (outputTransfer ctx s src r invalidSI) r = true
        rw [matOf_outputTransfer]
        exact matOf_setMat_true_self s r hrh

theorem ringHas_eq_of_ringLE {c d : RegRing}
    (h : List.Forall₂ (fun p q : Reg × Bool => p.1 = q.1 ∧ (p.2 = true → q.2 = true)) c d)
    (x : Reg) : ringHas c x = ringHas d x := by
  induction h with
  | nil => rfl
  | @cons a b l₁ l₂ hab htl ih =>
      unfold ringHas at ih ⊢
      rw [List.any_cons, List.any_cons, hab.1, ih]

theorem find?_ringLE {l l' : List RegRing} (h : List.Forall₂ RingLE l l') (x : Reg) :
    ∀ {c}, l.find? (fun c => ringHas c x) = some c →
      ∃ d, l'.find? (fun c => ringHas c x) = some d ∧ RingLE c d := by
  induction h with
  | nil => intro c hc; simp at hc
  | @cons a b l₁ l₂ hab htl ih =>
      intro c hc
      by_cases hr : ringHas a x = true
      · have hstep : List.find? (fun c => ringHas c x) (a :: l₁) = some a :=
          List.find?_cons_of_pos _ hr
        rw [hstep] at hc
        cases hc
        have hrb : ringHas b x = true := by rw [← ringHas_eq_of_ringLE hab]; exact hr
        exact ⟨b, List.find?_cons_of_pos _ hrb, hab⟩
      · have hrb : ¬ ringHas b x = true := by rw [← ringHas_eq_of_ringLE hab]; exact hr
        have hstep : List.find? (fun c => ringHas c x) (a :: l₁) =
            List.find? (fun c => ringHas c x) l₁ := List.find?_cons_of_neg _ hr
        rw [hstep] at hc
        obtain ⟨d, hd, hR⟩ := ih hc
        refine ⟨d, ?_, hR⟩
        have hstep' : List.find? (fun c => ringHas c x) (b :: l₂) =
            List.find? (fun c => ringHas c x) l₂ := List.find?_cons_of_neg _ hrb
        rw [hstep']
        exact hd

theorem find?_entry_ringLE {c d : RegRing}
    (h : List.Forall₂ (fun p q : Reg × Bool => p.1 = q.1 ∧ (p.2 = true → q.2 = true)) c d)
    (x : Reg) :
    ∀ {p}, c.find? (fun p => p.1 == x) = some p →
      ∃ q, d.find? (fun p => p.1 == x) = some q ∧ p.1 = q.1 ∧ (p.2 = true → q.2 = true) := by
  induction h with
  | nil => intro p hp; simp at hp
  | @cons a b l₁ l₂ hab htl ih =>
      intro p hp
      by_cases ha : (a.1 == x) = true
      · have hstep : List.find? (fun p : Reg × Bool => p.1 == x) (a :: l₁) = some a :=
          List.find?_cons_of_pos _ ha
        rw [hstep] at hp
        cases hp
        have hb : (b.1 == x) = true := by rw [← hab.1]; exact ha
        exact ⟨b, List.find?_cons_of_pos _ hb, hab.1, hab.2⟩
      · have hb : ¬ (b.1 == x) = true := by rw [← hab.1]; exact ha
        have hstep : List.find? (fun p : Reg × Bool => p.1 == x) (a :: l₁) =
            List.find? (fun p : Reg × Bool => p.1 == x) l₁ := List.find?_cons_of_neg _ ha
        rw [hstep] at hp
        obtain ⟨q, hq, h1, h2⟩ := ih hp
        refine ⟨q, ?_, h1, h2⟩
        have hstep' : List.find? (fun p : Reg × Bool => p.1 == x) (b :: l₂) =
            List.find? (fun p : Reg × Bool => p.1 == x) l₂ := List.find?_cons_of_neg _ hb
        rw [hstep']
        exact hq

theorem matOf_mono {s s' : OptState} (h : StateLE s s') {x : Reg} (hm : matOf s x = true) :
    matOf s' x = true := by
  have h' : List.Forall₂ RingLE s.classes s'.classes := h
  cases hf : s.classes.find? (fun c => ringHas c x) with
  | none =>
      rw [matOf, classOf, hf] at hm
      simp at hm
  | some c =>
      obtain ⟨d, hd, hR⟩ := find?_ringLE h' x hf
      rw [matOf, classOf, hf] at hm
      rw [matOf, classOf, hd]
      simp only [Option.getD_some] at hm ⊢
      cases hp : c.find? (fun p => p.1 == x) with
      | none => rw [hp] at hm; simp at hm
      | some p =>
          rw [hp] at hm
          have hR' : List.Forall₂
              (fun p q : Reg × Bool => p.1 = q.1 ∧ (p.2 = true → q.2 = true)) c d := hR
          obtain ⟨q, hq, _, himp⟩ := find?_entry_ringLE hR' x hp
          rw [hq]
          exact himp hm

theorem any_snd_ringLE {c d : RegRing}
    (h : List.Forall₂ (fun p q : Reg × Bool => p.1 = q.1 ∧ (p.2 = true → q.2 = true)) c d)
    (hm : c.any (fun p => p.2) = true) : d.any (fun p => p.2) = true := by
  induction h with
  | nil => simp at hm
  | @cons a b l₁ l₂ hab htl ih =>
      rw [List.any_cons] at hm ⊢
      rcases (by simpa using hm : a.2 = true ∨ l₁.any (fun p => p.2) = true) with h1 | h1
      · simp [hab.2 h1]
      · simp [ih (by simpa using h1)]

theorem anyMat_mono {s s' : OptState} (h : StateLE s s') (x : Reg)
    (hm : (classOf s x).any (fun p => p.2) = true) :
    (classOf s' x).any (fun p => p.2) = true := by
  have h' : List.Forall₂ RingLE s.classes s'.classes := h
  cases hf : s.classes.find? (fun c => ringHas c x) with
  | none =>
      rw [classOf, hf] at hm
      simp at hm
  | some c =>
      obtain ⟨d, hd, hR⟩ := find?_ringLE h' x hf
      rw [classOf, hf] at hm
      rw [classOf, hd]
      simp only [Option.getD_some] at hm ⊢
      exact any_snd_ringLE hR hm

theorem stateLE_foldl_f {α : Type} (ctx : Ctx) (f : α → Reg) (l : List α) :
    ∀ s : OptState, StateLE s (l.foldl (fun st k => materializeReg ctx st (f k)) s) := by
  induction l with
  | nil => intro s; exact stateLE_refl s
  | cons a l ih =>
      intro s
      exact stateLE_trans (stateLE_materializeReg ctx s (f a)) (ih _)

theorem materializeReg_out_extends (ctx : Ctx) (s : OptState) (r : Reg) :
    ∃ t, (materializeReg ctx s r).out = s.out ++ t := by
  unfold materializeReg
  by_cases hm : matOf s r = true
  · rw [if_pos hm]
    exact ⟨[], by simp⟩
  · rw [if_neg hm]
    cases hg : getMatEquiv s r with
    | none => exact ⟨[], by simp⟩
    | some src =>
        refine ⟨[transferNode ctx src r invalidSI], ?_⟩
        show (outputTransfer ctx s src r invalidSI).out = _
        exact outputTransfer_out ctx s src r invalidSI

theorem foldl_mat_out_extends {α : Type} (ctx : Ctx) (f : α → Reg) (l : List α) :
    ∀ s : OptState,
      ∃ t, (l.foldl (fun st k => materializeReg ctx st (f k)) s).out = s.out ++ t := by
  induction l with
  | nil => intro s; exact ⟨[], by simp⟩
  | cons a l ih =>
      intro s
      obtain ⟨t2, h2⟩ := ih (materializeReg ctx s (f a))
      obtain ⟨t1, h1⟩ := materializeReg_out_extends ctx s (f a)
      exact ⟨t1 ++ t2, by rw [List.foldl_cons, h2, h1, List.append_assoc]⟩

theorem foldl_mat_all {α : Type} (ctx : Ctx) (f : α → Reg) :
    ∀ (l : List α) (s : OptState),
      (∀ a ∈ l, (classOf s (f a)).any (fun p => p.2) = true) →
      ∀ a ∈ l, matOf (l.foldl (fun st k => materializeReg ctx st (f k)) s) (f a) = true := by
  intro l
  induction l with
  | nil => intro s _ a ha; exact absurd ha (List.not_mem_nil a)
  | cons a l ih =>
      intro s hall b hb
      rw [List.foldl_cons]
      have hle : StateLE s (materializeReg ctx s (f a)) := stateLE_materializeReg ctx s (f a)
      rcases List.mem_cons.mp hb with rfl | hb'
      · have h1 : matOf (materializeReg ctx s (f b)) (f b) = true :=
          materializeReg_makes_mat ctx s (f b) (hall b (List.mem_cons_self b l))
        exact matOf_mono (stateLE_foldl_f ctx f l _) h1
      · refine ih (materializeReg ctx s (f a)) ?_ b hb'
        intro x hx
        exact anyMat_mono hle (f x) (hall x (List.mem_cons_of_mem a hx))

theorem prepareOutputReg_out_silent (ctx : Ctx) {s : OptState}
    (h : accOutSilent ctx s = true) : (prepareOutputReg ctx s Reg.acc).out = s.out := by
  unfold prepareOutputReg
  rw [moveToNewSet_out]
  by_cases hm : matOf s Reg.acc = true
  · rw [if_pos hm]
    have hnone : getEquivToMaterialize ctx s Reg.acc = none := by
      unfold accOutSilent at h
      rw [hm] at h
      simpa using h
    unfold createMatEquiv
    rw [hnone]
  · rw [if_neg hm]

theorem decode_toOperand_temp (ctx : Ctx) (t : Nat) :
    decodeReg ctx (Reg.toOperand ctx (Reg.temp t)) = Reg.temp t := by
  have h : Reg.toOperand ctx (Reg.temp t) = (ctx.localCount : Int) + (t : Int) := rfl
  rw [h]
  unfold decodeReg
  rw [if_neg (by omega), if_neg (by omega)]
  congr 1
  omega

theorem decode_toOperand_loc (ctx : Ctx) (j : Nat) (h : j < ctx.localCount) :
    decodeReg ctx (Reg.toOperand ctx (Reg.loc j)) = Reg.loc j := by
  have he : Reg.toOperand ctx (Reg.loc j) = (j : Int) := rfl
  rw [he]
  unfold decodeReg
  have ht : ((j : Int)).toNat = j := by omega
  rw [if_neg (by omega), if_pos (by omega), ht]

theorem write_call (ctx : Ctx) (s : OptState) (n : Node)
    (h : n.bytecode = Bytecode.CallJSRuntime) :
    write ctx s n =
      { prepareOutputReg ctx (prepOps ctx s n (opTypes Bytecode.CallJSRuntime).enum).1 Reg.acc
          with out :=
            (prepareOutputReg ctx
              (prepOps ctx s n (opTypes Bytecode.CallJSRuntime).enum).1 Reg.acc).out ++
            [(prepOps ctx s n (opTypes Bytecode.CallJSRuntime).enum).2] } := by
  obtain ⟨b, ops, sc, si⟩ := n
  have hb : b = Bytecode.CallJSRuntime := h
  subst hb
  rfl

/-! ### Ring-insertion and class-identity lemmas -/

theorem ringKeys_setMatRing (c : RegRing) (r : Reg) (b : Bool) :
    ringKeys (setMatRing c r b) = ringKeys c := by
  unfold ringKeys setMatRing
  rw [List.map_map]
  congr 1
  funext p
  by_cases h : (p.1 == r) = true
  · rw [Function.comp_apply, if_pos h]
  · rw [Function.comp_apply, if_neg h]

theorem key_unique {c : RegRing} (h : (ringKeys c).Nodup) {p q : Reg × Bool}
    (hp : p ∈ c) (hq : q ∈ c) (hk : p.1 = q.1) : p = q := by
  induction c with
  | nil => cases hp
  | cons a tl ih =>
      have hnd : a.1 ∉ ringKeys tl ∧ (ringKeys tl).Nodup := by
        unfold ringKeys at h ⊢
        rw [List.map_cons] at h
        exact List.nodup_cons.mp h
      rcases List.mem_cons.mp hp with rfl | hp'
      · rcases List.mem_cons.mp hq with rfl | hq'
        · rfl
        · exact absurd (by rw [hk]; exact List.mem_map_of_mem Prod.fst hq') hnd.1
      · rcases List.mem_cons.mp hq with rfl | hq'
        · exact absurd (by rw [← hk]; exact List.mem_map_of_mem Prod.fst hp') hnd.1
        · exact ih hnd.2 hp' hq'

theorem nodup_keys_classOf {s : OptState} (hW : WFkeys s) (x : Reg) :
    (ringKeys (classOf s x)).Nodup := by
  cases hf : s.classes.find? (fun c => ringHas c x) with
  | none => rw [classOf, hf]; exact List.nodup_nil
  | some c =>
      rw [classOf, hf]
      simp only [Option.getD_some]
      have hmem : c ∈ s.classes := List.mem_of_find?_eq_some hf
      unfold WFkeys allKeys at hW
      exact (List.nodup_flatten.mp hW).1 (ringKeys c) (List.mem_map_of_mem ringKeys hmem)

theorem mem_keys_of_ringHas {c : RegRing} {x : Reg} (h : ringHas c x = true) :
    x ∈ ringKeys c := by
  obtain ⟨p, hp, hpx⟩ := List.any_eq_true.mp h
  have hx : p.1 = x := by simpa using hpx
  rw [← hx]
  exact List.mem_map_of_mem Prod.fst hp

theorem ringHas_of_mem {c : RegRing} {p : Reg × Bool} (hp : p ∈ c) :
    ringHas c p.1 = true := List.any_eq_true.mpr ⟨p, hp, by simp⟩

theorem find?_class_eq (l : List RegRing) (a b : Reg)
    (hdisj : List.Pairwise List.Disjoint (l.map ringKeys)) :
    ∀ {c}, l.find? (fun c => ringHas c a) = some c → ringHas c b = true →
      l.find? (fun c => ringHas c b) = some c := by
  induction l with
  | nil => intro c hc; simp at hc
  | cons d tl ih =>
      intro c hc hb
      rw [List.map_cons, List.pairwise_cons] at hdisj
      by_cases hda : ringHas d a = true
      · have he : List.find? (fun c => ringHas c a) (d :: tl) = some d :=
          List.find?_cons_of_pos _ hda
        rw [he] at hc
        cases hc
        exact List.find?_cons_of_pos _ hb
      · have he : List.find? (fun c => ringHas c a) (d :: tl) =
            List.find? (fun c => ringHas c a) tl := List.find?_cons_of_neg _ hda
        rw [he] at hc
        have hcmem : c ∈ tl := List.mem_of_find?_eq_some hc
        have hdb : ¬ ringHas d b = true := by
          intro hdb
          exact hdisj.1 (ringKeys c) (List.mem_map_of_mem ringKeys hcmem)
            (mem_keys_of_ringHas hdb) (mem_keys_of_ringHas hb)
        have he2 : List.find? (fun c => ringHas c b) (d :: tl) =
            List.find? (fun c => ringHas c b) tl := List.find?_cons_of_neg _ hdb
        rw [he2]
        exact ih hdisj.2 hc hb

theorem classOf_eq_of_mem {s : OptState} (hW : WFkeys s) {a b : Reg}
    (h : ringHas (classOf s a) b = true) : classOf s b = classOf s a := by
  unfold WFkeys allKeys at hW
  have hdisj := (List.nodup_flatten.mp hW).2
  cases hfa : s.classes.find? (fun c => ringHas c a) with
  | none =>
      rw [classOf, hfa] at h
      simp [ringHas] at h
  | some c =>
      rw [classOf, hfa] at h
      simp only [Option.getD_some] at h
      rw [classOf, find?_class_eq s.classes a b hdisj hfa h, classOf, hfa]

theorem classOf_setMat_eq (s : OptState) (r x : Reg) (b : Bool) :
    classOf (setMat s r b) x =
      (if ringHas (classOf s x) r = true then setMatRing (classOf s x) r b
       else classOf s x) := by
  rw [classOf_setMat]
  cases hf : s.classes.find? (fun c => ringHas c x) with
  | none =>
      rw [classOf, hf]
      rfl
  | some c =>
      rw [classOf, hf]
      simp only [Option.map_some', Option.getD_some]

theorem find?_remove_list (l : List RegRing) (x y : Reg) (hxy : x ≠ y) :
    ((((l.map (fun c => c.filter (fun p => !(p.1 == y)))).filter
        (fun c => !c.isEmpty)).find? (fun c => ringHas c x)).getD []) =
      ((l.find? (fun c => ringHas c x)).getD []).filter (fun p => !(p.1 == y)) := by
  induction l with
  | nil => rfl
  | cons c l ih =>
      have hring : ringHas (c.filter (fun p => !(p.1 == y))) x = ringHas c x := by
        unfold ringHas
        rw [List.any_filter]
        congr 1
        funext p
        by_cases hx : (p.1 == x) = true
        · have hpx : p.1 = x := by simpa using hx
          have hy : (p.1 == y) = false := by
            rw [beq_eq_false_iff_ne]
            intro he
            exact hxy (by rw [← hpx]; exact he)
          rw [hx, hy]
          rfl
        · have hx' : (p.1 == x) = false := by
            cases hpe : (p.1 == x) with
            | false => rfl
            | true => exact absurd hpe hx
          rw [hx', Bool.and_false]
      rw [List.map_cons]
      by_cases hcx : ringHas c x = true
      · have hfil : ringHas (c.filter (fun p => !(p.1 == y))) x = true := by
          rw [hring]; exact hcx
        obtain ⟨q, hq, _⟩ := List.any_eq_true.mp hfil
        have hne : (!(c.filter (fun p => !(p.1 == y))).isEmpty) = true := by
          cases hl : c.filter (fun p => !(p.1 == y)) with
          | nil => rw [hl] at hq; cases hq
          | cons a tl => rfl
        have hkeep : ((c.filter (fun p => !(p.1 == y)) ::
            l.map (fun c => c.filter (fun p => !(p.1 == y)))).filter (fun c => !c.isEmpty)) =
            c.filter (fun p => !(p.1 == y)) ::
              ((l.map (fun c => c.filter (fun p => !(p.1 == y)))).filter
                (fun c => !c.isEmpty)) := List.filter_cons_of_pos hne
        rw [hkeep]
        have hfind : List.find? (fun c => ringHas c x)
            (c.filter (fun p => !(p.1 == y)) ::
              ((l.map (fun c => c.filter (fun p => !(p.1 == y)))).filter
                (fun c => !c.isEmpty))) = some (c.filter (fun p => !(p.1 == y))) :=
          List.find?_cons_of_pos _ hfil
        have hfind2 : List.find? (fun c => ringHas c x) (c :: l) = some c :=
          List.find?_cons_of_pos _ hcx
        rw [hfind, hfind2]
        rfl
      · have hfil : ¬ ringHas (c.filter (fun p => !(p.1 == y))) x = true := by
          rw [hring]; exact hcx
        have hfind2 : List.find? (fun c => ringHas c x) (c :: l) =
            List.find? (fun c => ringHas c x) l := List.find?_cons_of_neg _ hcx
        rw [hfind2]
        by_cases hemp : (c.filter (fun p => !(p.1 == y))).isEmpty = true
        · have hdrop : ((c.filter (fun p => !(p.1 == y)) ::
              l.map (fun c => c.filter (fun p => !(p.1 == y)))).filter (fun c => !c.isEmpty)) =
              ((l.map (fun c => c.filter (fun p => !(p.1 == y)))).filter
                (fun c => !c.isEmpty)) :=
            List.filter_cons_of_neg (by simp [hemp])
          rw [hdrop]
          exact ih
        · have hemp' : (c.filter (fun p => !(p.1 == y))).isEmpty = false := by
            cases he2 : (c.filter (fun p => !(p.1 == y))).isEmpty with
            | false => rfl
            | true => exact absurd he2 hemp
          have hkeep : ((c.filter (fun p => !(p.1 == y)) ::
              l.map (fun c => c.filter (fun p => !(p.1 == y)))).filter (fun c => !c.isEmpty)) =
              c.filter (fun p => !(p.1 == y)) ::
                ((l.map (fun c => c.filter (fun p => !(p.1 == y)))).filter
                  (fun c => !c.isEmpty)) :=
            List.filter_cons_of_pos (by rw [hemp']; rfl)
          rw [hkeep]
          have hfind : List.find? (fun c => ringHas c x)
              (c.filter (fun p => !(p.1 == y)) ::
                ((l.map (fun c => c.filter (fun p => !(p.1 == y)))).filter
                  (fun c => !c.isEmpty))) =
              List.find? (fun c => ringHas c x)
                ((l.map (fun c => c.filter (fun p => !(p.1 == y)))).filter
                  (fun c => !c.isEmpty)) := List.find?_cons_of_neg _ hfil
          rw [hfind]
          exact ih

theorem classOf_removeReg_ne (s : OptState) (x y : Reg) (hxy : x ≠ y) :
    classOf (removeReg s y) x = (classOf s x).filter (fun p => !(p.1 == y)) :=
  find?_remove_list s.classes x y hxy

theorem findIdx?_isSome_of_ringHas {c : RegRing} {x : Reg} (h : ringHas c x = true) :
    c.findIdx? (fun p => p.1 == x) ≠ none := by
  intro hn
  have hall := List.findIdx?_eq_none_iff.mp hn
  obtain ⟨p, hp, hpx⟩ := List.any_eq_true.mp h
  have := hall p hp
  rw [hpx] at this
  cases this

theorem mem_insertAfter {c : RegRing} {anchor r : Reg} {b : Bool} {p : Reg × Bool}
    (hp : p ∈ c) : p ∈ insertAfter c anchor r b := by
  unfold insertAfter
  cases hf : c.findIdx? (fun q => q.1 == anchor) with
  | none => exact hp
  | some i =>
      rw [← List.take_append_drop (i + 1) c] at hp
      rcases List.mem_append.mp hp with h1 | h1
      · exact List.mem_append.mpr (Or.inl (List.mem_append.mpr (Or.inl h1)))
      · exact List.mem_append.mpr (Or.inr h1)

theorem inserted_mem_insertAfter {c : RegRing} {anchor r : Reg} {b : Bool}
    (h : ringHas c anchor = true) : (r, b) ∈ insertAfter c anchor r b := by
  unfold insertAfter
  cases hf : c.findIdx? (fun q => q.1 == anchor) with
  | none => exact absurd hf (findIdx?_isSome_of_ringHas h)
  | some i =>
      exact List.mem_append.mpr (Or.inl (List.mem_append.mpr (Or.inr (by simp))))

theorem mem_insertAfter_rev {c : RegRing} {anchor r : Reg} {b : Bool} {p : Reg × Bool}
    (hp : p ∈ insertAfter c anchor r b) (hne : p ≠ (r, b)) : p ∈ c := by
  unfold insertAfter at hp
  cases hf : c.findIdx? (fun q => q.1 == anchor) with
  | none => rw [hf] at hp; exact hp
  | some i =>
      rw [hf] at hp
      rcases List.mem_append.mp hp with h1 | h1
      · rcases List.mem_append.mp h1 with h2 | h2
        · exact List.take_subset _ _ h2
        · exact absurd (by simpa using h2) hne
      · exact List.drop_subset _ _ h1

theorem nodup_keys_insertAfter {c : RegRing} {anchor r : Reg} {b : Bool}
    (h : (ringKeys c).Nodup) (hr : ringHas c r = false) :
    (ringKeys (insertAfter c anchor r b)).Nodup := by
  unfold insertAfter
  cases hf : c.findIdx? (fun q => q.1 == anchor) with
  | none => exact h
  | some i =>
      unfold ringKeys
      rw [List.map_append, List.map_append]
      rw [show List.map Prod.fst [(r, b)] = [r] from rfl, List.append_assoc,
        List.singleton_append]
      have hAB : (c.take (i + 1)).map Prod.fst ++ (c.drop (i + 1)).map Prod.fst =
          ringKeys c := by
        unfold ringKeys
        rw [← List.map_append, List.take_append_drop]
      have hrk : r ∉ (c.take (i + 1)).map Prod.fst ++ (c.drop (i + 1)).map Prod.fst := by
        rw [hAB]
        intro hmem
        obtain ⟨p, hp, hpr⟩ := List.mem_map.mp hmem
        have : ringHas c r = true := by
          rw [← hpr]
          exact ringHas_of_mem hp
        rw [hr] at this
        cases this
      refine (List.perm_middle.nodup_iff).mpr ?_
      rw [List.nodup_cons]
      refine ⟨hrk, ?_⟩
      rw [hAB]
      exact h

theorem entry_false (s : OptState) (hm : matOf s Reg.acc = false)
    (hin : ringHas (classOf s Reg.acc) Reg.acc = true) :
    (Reg.acc, false) ∈ classOf s Reg.acc := by
  have hex : ∃ p ∈ classOf s Reg.acc, (p.1 == Reg.acc) = true := by
    simpa [ringHas, List.any_eq_true] using hin
  obtain ⟨p, hp⟩ := Option.isSome_iff_exists.mp (List.find?_isSome.mpr hex)
  have hpm : p ∈ classOf s Reg.acc := List.mem_of_find?_eq_some hp
  have hp1 : p.1 = Reg.acc := by
    have := List.find?_some hp
    simpa using this
  have hp2 : p.2 = false := by
    rw [matOf, hp] at hm
    exact hm
  obtain ⟨a, b⟩ := p
  rw [show a = Reg.acc from hp1, show b = false from hp2] at hpm
  exact hpm

theorem matOf_of_entry {s : OptState} (hW : WFkeys s) {x y : Reg}
    (h : (x, true) ∈ classOf s y) : matOf s x = true := by
  have hrh : ringHas (classOf s y) x = true := by
    refine List.any_eq_true.mpr ⟨(x, true), h, ?_⟩
    simp
  have hcls : classOf s x = classOf s y := classOf_eq_of_mem hW hrh
  have hne : classOf s x ≠ [] := by
    rw [hcls]
    exact List.ne_nil_of_mem h
  have hin : ringHas (classOf s x) x = true := ringHas_classOf s x hne
  have hex : ∃ p ∈ classOf s x, (p.1 == x) = true := by
    simpa [ringHas, List.any_eq_true] using hin
  obtain ⟨p, hp⟩ := Option.isSome_iff_exists.mp (List.find?_isSome.mpr hex)
  have hpm := List.mem_of_find?_eq_some hp
  have hp1 : p.1 = x := by
    have := List.find?_some hp
    simpa using this
  have hpq : p = (x, true) :=
    key_unique (nodup_keys_classOf hW x) hpm (by rw [hcls]; exact h) (by rw [hp1])
  rw [matOf, hp, hpq]

theorem classOf_addToSetOf_acc (s : OptState) (anchor r : Reg) (hne : anchor ≠ r)
    (hnotin : ringHas (classOf s anchor) r = false)
    (hanch : ringHas (classOf s anchor) anchor = true) :
    classOf (addToSetOf s anchor r) anchor = insertAfter (classOf s anchor) anchor r false := by
  have h1 : classOf (removeReg s r) anchor = classOf s anchor := by
    rw [classOf_removeReg_ne s anchor r hne]
    refine List.filter_eq_self.mpr ?_
    intro p hp
    have : (p.1 == r) = false := by
      rw [beq_eq_false_iff_ne]
      intro he
      have := ringHas_of_mem hp
      rw [he] at this
      rw [this] at hnotin
      cases hnotin
    rw [this]
    rfl
  have hpred : ∀ c,
      ringHas (if ringHas c anchor then insertAfter c anchor r false else c) anchor =
        ringHas c anchor := by
    intro c
    by_cases h : ringHas c anchor = true
    · rw [if_pos h, h]
      unfold ringHas at h ⊢
      obtain ⟨p, hp, hpa⟩ := List.any_eq_true.mp h
      exact List.any_eq_true.mpr ⟨p, mem_insertAfter hp, hpa⟩
    · rw [if_neg h]
  show ((((removeReg s r).classes.map
      (fun c => if ringHas c anchor then insertAfter c anchor r false else c)).find?
        (fun c => ringHas c anchor)).getD []) = _
  rw [find?_map_of_pred _ _ _ hpred]
  cases hf : (removeReg s r).classes.find? (fun c => ringHas c anchor) with
  | none =>
      exfalso
      have hnil : classOf (removeReg s r) anchor = [] := by rw [classOf, hf]; rfl
      rw [h1] at hnil
      rw [hnil] at hanch
      simp [ringHas] at hanch
  | some c =>
      have hc : classOf (removeReg s r) anchor = c := by rw [classOf, hf]; rfl
      rw [h1] at hc
      simp only [Option.map_some', Option.getD_some]
      rw [← hc, if_pos hanch]

theorem registerTransfer_star_obs (ctx : Ctx) (s : OptState) (input output : Reg)
    (si : SourceInfo) (h1 : matOf s output = true)
    (h2 : getEquivToMaterialize ctx s output = none)
    (h3 : Reg.isObservable output = true) (h4 : sameSet s input output = true) :
    registerTransfer ctx s input output si =
      starFinish ctx (setMat s output false) input output si := by
  unfold registerTransfer createMatEquiv
  simp [h1, h2, h3, h4]

theorem registerTransfer_star_obs2 (ctx : Ctx) (s : OptState) (input output : Reg)
    (si : SourceInfo) (h1 : matOf s output = true)
    (h2 : getEquivToMaterialize ctx s output = none)
    (h3 : Reg.isObservable output = true) (h4 : sameSet s input output = false) :
    registerTransfer ctx s input output si =
      starFinish ctx (setMat (addToSetOf s input output) output false) input output si := by
  unfold registerTransfer createMatEquiv
  simp [h1, h2, h3, h4]

theorem write_star (ctx : Ctx) (s : OptState) (n : Node) (h : n.bytecode = Bytecode.Star) :
    write ctx s n =
      registerTransfer ctx s Reg.acc (decodeReg ctx (n.operands.getD 0 0)) n.sourceInfo := by
  obtain ⟨b, ops, sc, si⟩ := n
  have hb : b = Bytecode.Star := h
  subst hb
  rfl

theorem transferNode_mov (ctx : Ctx) (src : Reg) (j : Nat) (h : src ≠ Reg.acc)
    (si : SourceInfo) :
    transferNode ctx src (Reg.loc j) si =
      { bytecode := Bytecode.Mov,
        operands := [Reg.toOperand ctx src, Reg.toOperand ctx (Reg.loc j)],
        scale := scaleForOps [Reg.toOperand ctx src, Reg.toOperand ctx (Reg.loc j)],
        sourceInfo := si } := by
  unfold transferNode
  rw [if_neg (fun hc => h (by simpa using hc)), if_neg (by simp)]

theorem star_emit (ctx : Ctx) (s2 : OptState) (j : Nat)
    (hkeysK : (ringKeys (classOf s2 Reg.acc)).Nodup)
    (haccK : (Reg.acc, false) ∈ classOf s2 Reg.acc)
    (hLK : ringHas (classOf s2 Reg.acc) (Reg.loc j) = true)
    (hmat : ∃ p ∈ classOf s2 Reg.acc, p.2 = true ∧ p.1 ≠ Reg.acc ∧ p.1 ≠ Reg.loc j) :
    ∃ src, src ≠ Reg.acc ∧ src ≠ Reg.loc j ∧ (src, true) ∈ classOf s2 Reg.acc ∧
      (starFinish ctx (setMat s2 (Reg.loc j) false) Reg.acc (Reg.loc j) invalidSI).out =
        s2.out ++ [transferNode ctx src (Reg.loc j) invalidSI] := by
  have hK3 : classOf (setMat s2 (Reg.loc j) false) Reg.acc =
      setMatRing (classOf s2 Reg.acc) (Reg.loc j) false := by
    rw [classOf_setMat_eq, if_pos hLK]
  obtain ⟨p, hpmem, hp2, hpacc, hpL⟩ := hmat
  have hpK3 : p ∈ setMatRing (classOf s2 Reg.acc) (Reg.loc j) false := by
    refine List.mem_map.mpr ⟨p, hpmem, ?_⟩
    rw [if_neg (fun hc => hpL (by simpa using hc))]
  have hrot := perm_rotateTo (setMatRing (classOf s2 Reg.acc) (Reg.loc j) false) Reg.acc
  have hex : ∃ q ∈ rotateTo (setMatRing (classOf s2 Reg.acc) (Reg.loc j) false) Reg.acc,
      (fun q : Reg × Bool => q.2) q = true := ⟨p, hrot.mem_iff.mpr hpK3, hp2⟩
  obtain ⟨q, hq⟩ := Option.isSome_iff_exists.mp (List.find?_isSome.mpr hex)
  have hq2 : q.2 = true := List.find?_some hq
  have hqK3 : q ∈ setMatRing (classOf s2 Reg.acc) (Reg.loc j) false :=
    hrot.mem_iff.mp (List.mem_of_find?_eq_some hq)
  have hkeys3 : (ringKeys (setMatRing (classOf s2 Reg.acc) (Reg.loc j) false)).Nodup := by
    rw [ringKeys_setMatRing]
    exact hkeysK
  have haccK3 : (Reg.acc, false) ∈ setMatRing (classOf s2 Reg.acc) (Reg.loc j) false := by
    refine List.mem_map.mpr ⟨(Reg.acc, false), haccK, ?_⟩
    rw [if_neg (by simp)]
  obtain ⟨pl, hpl, hplx⟩ := List.any_eq_true.mp hLK
  have hLentry : (Reg.loc j, false) ∈ setMatRing (classOf s2 Reg.acc) (Reg.loc j) false := by
    refine List.mem_map.mpr ⟨pl, hpl, ?_⟩
    rw [if_pos hplx]
    have : pl.1 = Reg.loc j := by simpa using hplx
    rw [this]
  have hqacc : q.1 ≠ Reg.acc := by
    intro he
    have hqq := key_unique hkeys3 hqK3 haccK3 (by rw [he])
    rw [hqq] at hq2
    cases hq2
  have hqL : q.1 ≠ Reg.loc j := by
    intro he
    have hqq := key_unique hkeys3 hqK3 hLentry (by rw [he])
    rw [hqq] at hq2
    cases hq2
  obtain ⟨q0, hq0mem, hq0img⟩ := List.mem_map.mp hqK3
  have hq0 : q0 = q := by
    by_cases hb : (q0.1 == Reg.loc j) = true
    · rw [if_pos hb] at hq0img
      exfalso
      rw [← hq0img] at hq2
      cases hq2
    · rw [if_neg hb] at hq0img
      exact hq0img
  have hqmemK : q ∈ classOf s2 Reg.acc := hq0 ▸ hq0mem
  have hqpair : (q.1, true) = q := by
    obtain ⟨a, b⟩ := q
    rw [show b = true from hq2]
  refine ⟨q.1, hqacc, hqL, by rw [hqpair]; exact hqmemK, ?_⟩
  unfold starFinish
  have hgme : getMatEquiv (setMat s2 (Reg.loc j) false) Reg.acc = some q.1 := by
    unfold getMatEquiv
    rw [hK3, hq]
    rfl
  rw [hgme]
  show (outputTransfer ctx (setMat s2 (Reg.loc j) false) q.1 (Reg.loc j) invalidSI).out = _
  rw [outputTransfer_out, setMat_out]

/-! ### Claim theorems -/

/-- C1, literal reading refuted: in the trace allocate(T0);
load-accumulator-from(P1); store-accumulator-to(T0);
load-accumulator-from(T0); store-accumulator-to(L0), the final pair is a
deferred accumulator load from R = T0 immediately followed by a store to
the non-temporary L0 (nothing has been forwarded before the store), yet
the single fused move the optimizer forwards is move(P1 → L0), not
move(T0 → L0): its source operand is a materialized equivalent of R, not
R itself, because R was never materialized. -/
theorem c1_counterexample :
    (run ctx31 (evsC1.take 4)).out = [] ∧
    (run ctx31 evsC1).out = [movNodeC ctx31 (Reg.param 1) (Reg.loc 0)] ∧
    movNodeC ctx31 (Reg.param 1) (Reg.loc 0) ≠ movNodeC ctx31 (Reg.temp 0) (Reg.loc 0) := by
  refine ⟨by decide, by decide, by decide⟩

/-- C1 (amended): a deferred accumulator load from R immediately followed
by a store to a local L = loc j is fused: provided the load forwarded
nothing (it was deferred), the accumulator is pending afterwards and sits
in R's equivalence class, the state's class keys are well formed, L is
materialized with no pending equivalent needing a save, and R's class has
a materialized member other than the accumulator and L, the pair forwards
exactly one instruction — a register-to-register move into L whose source
is a materialized member of R's equivalence class — never the separate
load and store, and never two instructions. -/
theorem c1_fused_move (ctx : Ctx) (s : OptState) (R : Reg) (j : Nat)
    (hj : j < ctx.localCount)
    (hdefer : (write ctx s (ldarNode ctx R)).out = s.out)
    (haccp : matOf (write ctx s (ldarNode ctx R)) Reg.acc = false)
    (hkeys : WFkeys (write ctx s (ldarNode ctx R)))
    (hRacc : ringHas (classOf (write ctx s (ldarNode ctx R)) Reg.acc) R = true)
    (hLmat : matOf (write ctx s (ldarNode ctx R)) (Reg.loc j) = true)
    (hLsave : getEquivToMaterialize ctx (write ctx s (ldarNode ctx R)) (Reg.loc j) = none)
    (hMat : ∃ p ∈ classOf (write ctx s (ldarNode ctx R)) Reg.acc,
      p.2 = true ∧ p.1 ≠ Reg.acc ∧ p.1 ≠ Reg.loc j) :
    ∃ src,
      matOf (write ctx s (ldarNode ctx R)) src = true ∧
      ringHas (classOf (write ctx s (ldarNode ctx R)) R) src = true ∧
      src ≠ Reg.acc ∧
      (write ctx (write ctx s (ldarNode ctx R)) (starNode ctx (Reg.loc j))).out =
        s.out ++ [transferNode ctx src (Reg.loc j) invalidSI] ∧
      (transferNode ctx src (Reg.loc j) invalidSI).bytecode = Bytecode.Mov := by
  set s1 := write ctx s (ldarNode ctx R) with hs1
  have hws : write ctx s1 (starNode ctx (Reg.loc j)) =
      registerTransfer ctx s1 Reg.acc (Reg.loc j) invalidSI := by
    rw [write_star ctx s1 (starNode ctx (Reg.loc j)) rfl]
    have hop : (starNode ctx (Reg.loc j)).operands.getD 0 0 =
        Reg.toOperand ctx (Reg.loc j) := rfl
    rw [hop, decode_toOperand_loc ctx j hj]
    rfl
  have hne : classOf s1 Reg.acc ≠ [] := by
    obtain ⟨p, hp, _⟩ := List.any_eq_true.mp hRacc
    exact List.ne_nil_of_mem hp
  have hin : ringHas (classOf s1 Reg.acc) Reg.acc = true := ringHas_classOf s1 Reg.acc hne
  have haccK : (Reg.acc, false) ∈ classOf s1 Reg.acc := entry_false s1 haccp hin
  have hkeysK : (ringKeys (classOf s1 Reg.acc)).Nodup := nodup_keys_classOf hkeys Reg.acc
  have hclsR : classOf s1 R = classOf s1 Reg.acc := classOf_eq_of_mem hkeys hRacc
  by_cases hsame : sameSet s1 Reg.acc (Reg.loc j) = true
  · have hLK : ringHas (classOf s1 Reg.acc) (Reg.loc j) = true := hsame
    obtain ⟨src, hsacc, hsL, hsmem, hout⟩ := star_emit ctx s1 j hkeysK haccK hLK hMat
    refine ⟨src, matOf_of_entry hkeys hsmem, ?_, hsacc, ?_, ?_⟩
    · rw [hclsR]
      exact ringHas_of_mem hsmem
    · rw [hws,
        registerTransfer_star_obs ctx s1 Reg.acc (Reg.loc j) invalidSI hLmat hLsave rfl hsame,
        hout, hdefer]
    · rw [transferNode_mov ctx src j hsacc invalidSI]
  · have hsame' : sameSet s1 Reg.acc (Reg.loc j) = false := by
      cases hb : sameSet s1 Reg.acc (Reg.loc j) with
      | false => rfl
      | true => exact absurd hb hsame
    have hnotin : ringHas (classOf s1 Reg.acc) (Reg.loc j) = false := hsame'
    have haneL : Reg.acc ≠ Reg.loc j := by intro h; cases h
    have hcls2 : classOf (addToSetOf s1 Reg.acc (Reg.loc j)) Reg.acc =
        insertAfter (classOf s1 Reg.acc) Reg.acc (Reg.loc j) false :=
      classOf_addToSetOf_acc s1 Reg.acc (Reg.loc j) haneL hnotin hin
    have hkeys2 : (ringKeys (classOf (addToSetOf s1 Reg.acc (Reg.loc j)) Reg.acc)).Nodup := by
      rw [hcls2]
      exact nodup_keys_insertAfter hkeysK hnotin
    have hacc2 : (Reg.acc, false) ∈ classOf (addToSetOf s1 Reg.acc (Reg.loc j)) Reg.acc := by
      rw [hcls2]
      exact mem_insertAfter haccK
    have hL2 : ringHas (classOf (addToSetOf s1 Reg.acc (Reg.loc j)) Reg.acc)
        (Reg.loc j) = true := by
      rw [hcls2]
      exact ringHas_of_mem (inserted_mem_insertAfter hin)
    have hMat2 : ∃ p ∈ classOf (addToSetOf s1 Reg.acc (Reg.loc j)) Reg.acc,
        p.2 = true ∧ p.1 ≠ Reg.acc ∧ p.1 ≠ Reg.loc j := by
      obtain ⟨p, hp, h2, h3, h4⟩ := hMat
      exact ⟨p, by rw [hcls2]; exact mem_insertAfter hp, h2, h3, h4⟩
    obtain ⟨src, hsacc, hsL, hsmem, hout⟩ :=
      star_emit ctx (addToSetOf s1 Reg.acc (Reg.loc j)) j hkeys2 hacc2 hL2 hMat2
    have hsmem1 : (src, true) ∈ classOf s1 Reg.acc := by
      rw [hcls2] at hsmem
      refine mem_insertAfter_rev hsmem ?_
      intro he
      have hsnd : (true : Bool) = false := congrArg Prod.snd he
      cases hsnd
    refine ⟨src, matOf_of_entry hkeys hsmem1, ?_, hsacc, ?_, ?_⟩
    · rw [hclsR]
      exact ringHas_of_mem hsmem1
    · rw [hws,
        registerTransfer_star_obs2 ctx s1 Reg.acc (Reg.loc j) invalidSI hLmat hLsave rfl hsame',
        hout, addToSetOf_out, hdefer]
    · rw [transferNode_mov ctx src j hsacc invalidSI]

/-- Concrete instantiation of `c1_fused_move` at the counterexample trace:
after allocate(T0); Ldar(P1); Star(T0), the deferred pair Ldar(T0);
Star(L0) forwards exactly one move into L0 sourced from a materialized
member of T0's class. -/
theorem c1_fused_move_witness :
    ∃ src,
      matOf (write ctx31 (run ctx31 (evsC1.take 3)) (ldarNode ctx31 (Reg.temp 0))) src = true ∧
      ringHas (classOf (write ctx31 (run ctx31 (evsC1.take 3)) (ldarNode ctx31 (Reg.temp 0)))
        (Reg.temp 0)) src = true ∧
      src ≠ Reg.acc ∧
      (write ctx31 (write ctx31 (run ctx31 (evsC1.take 3)) (ldarNode ctx31 (Reg.temp 0)))
          (starNode ctx31 (Reg.loc 0))).out =
        (run ctx31 (evsC1.take 3)).out ++ [transferNode ctx31 src (Reg.loc 0) invalidSI] ∧
      (transferNode ctx31 src (Reg.loc 0) invalidSI).bytecode = Bytecode.Mov :=
  c1_fused_move ctx31 (run ctx31 (evsC1.take 3)) (Reg.temp 0) 0 (by decide) (by decide)
    (by decide) (by decide) (by decide) (by decide) (by decide) (by decide)

/-- C5: for the sequence load-accumulator-from(parameter 1);
store-accumulator-to(local 0); return, the optimizer forwards exactly the
three instructions move(P1 → L0); load-accumulator-from(L0); return — the
store materializes immediately as a fused move and the return's accumulator
read is satisfied from the local (the ring successor of the accumulator),
not from the parameter. -/
theorem c5_store_local_stream :
    (run ctx31 evsC5).out =
      [movNodeC ctx31 (Reg.param 1) (Reg.loc 0), ldarNode ctx31 (Reg.loc 0), returnNode] := by
  decide

/-- C2: killing a temporary register whose write is still pending
(unmaterialized) discards the write with zero emission, and in particular
the sequence load-accumulator-from(P1); store-accumulator-to(temp 0);
kill(temp 0); return forwards exactly load-accumulator-from(P1); return,
with no forwarded instruction mentioning the temporary's operand. -/
theorem c2_dead_temp_elided (ctx : Ctx) (s : OptState) (t : Nat)
    (h : matOf s (Reg.temp t) = false) :
    (freeTempReg ctx s (Reg.temp t)).out = s.out ∧
    ((run ctx31 evsC2).out = [ldarNode ctx31 (Reg.param 1), returnNode] ∧
      ∀ n ∈ (run ctx31 evsC2).out, Reg.toOperand ctx31 (Reg.temp 0) ∉ n.operands) := by
  constructor
  · unfold freeTempReg
    rw [h]
    split
    · simp [removeReg_out]
    · rfl
  · exact ⟨by decide, by decide⟩

/-- Concrete instantiation of `c2_dead_temp_elided`: after the deferred
store, the temporary is indeed pending, and its kill forwards nothing. -/
theorem c2_dead_temp_elided_witness :
    (freeTempReg ctx31 (run ctx31 (evsC2.take 3)) (Reg.temp 0)).out =
      (run ctx31 (evsC2.take 3)).out ∧
    (run ctx31 evsC2).out = [ldarNode ctx31 (Reg.param 1), returnNode] := by
  have h := c2_dead_temp_elided ctx31 (run ctx31 (evsC2.take 3)) 0 (by decide)
  exact ⟨h.1, h.2.1⟩

/-- C6: with no pending writes, the optimizer's FlushForOffset returns the
cumulative serialized size of everything forwarded so far, and it is
idempotent: an immediately repeated call returns the same size and forwards
nothing new downstream. -/
theorem c6_flush_offset_size (ctx : Ctx) (s : OptState) (h : noPending s) :
    (flushForOffset ctx s).1 = cumulativeSize s.out ∧
    (flushForOffset ctx (flushForOffset ctx s).2).1 = (flushForOffset ctx s).1 ∧
    (flushForOffset ctx (flushForOffset ctx s).2).2.out = (flushForOffset ctx s).2.out := by
  have h1 : (flushState ctx s).out = s.out := by
    rw [flushState_noPending ctx h, splitClasses_out]
  have hsmall : ∀ c ∈ (flushForOffset ctx s).2.classes, c.length ≤ 1 := by
    have heq : (flushForOffset ctx s).2.classes = (flushState ctx s).classes := rfl
    rw [heq]
    exact flushState_small ctx s
  have h2 : (flushState ctx (flushForOffset ctx s).2).out = (flushForOffset ctx s).2.out :=
    flushState_out_of_small ctx hsmall
  refine ⟨?_, ?_, ?_⟩
  · show cumulativeSize (flushState ctx s).out = cumulativeSize s.out
    rw [h1]
  · show cumulativeSize (flushState ctx (flushForOffset ctx s).2).out =
      cumulativeSize (flushState ctx s).out
    rw [h2]
    rfl
  · show (flushState ctx (flushForOffset ctx s).2).out = (flushForOffset ctx s).2.out
    exact h2

/-- Concrete instantiation of `c6_flush_offset_size` at the state reached
by the fused store-to-local scenario (nothing pending there). -/
theorem c6_flush_offset_size_witness :
    (flushForOffset ctx31 (run ctx31 evsC5)).1 = cumulativeSize (run ctx31 evsC5).out ∧
    (flushForOffset ctx31 (flushForOffset ctx31 (run ctx31 evsC5)).2).1 =
      (flushForOffset ctx31 (run ctx31 evsC5)).1 :=
  ⟨(c6_flush_offset_size ctx31 (run ctx31 evsC5) (by decide)).1,
   (c6_flush_offset_size ctx31 (run ctx31 evsC5) (by decide)).2.1⟩

/-- C7: FlushBasicBlock leaves no pending equivalence state — afterwards
every equivalence class is a materialized singleton — it calls the
downstream flush exactly once, and when nothing was pending it forwards no
additional instruction. -/
theorem c7_flush_basic_block_clears (ctx : Ctx) (s : OptState)
    (hw : ∀ c ∈ s.classes, ∃ p ∈ c, p.2 = true) :
    (∀ c ∈ (flushBasicBlock ctx s).classes, c.length = 1 ∧ ∀ p ∈ c, p.2 = true) ∧
    (flushBasicBlock ctx s).fbbCount = s.fbbCount + 1 ∧
    (flushBasicBlock ctx s).ffoCount = s.ffoCount ∧
    (noPending s → (flushBasicBlock ctx s).out = s.out) := by
  refine ⟨?_, ?_, ?_, ?_⟩
  · intro c hc
    have hcs : (flushBasicBlock ctx s).classes =
        (splitClasses ((pendingRegs s).foldl (materializeReg ctx) s)).classes := rfl
    rw [hcs, splitClasses_classes, mem_foldr_append] at hc
    obtain ⟨c₀, h₀, hmem⟩ := hc
    by_cases hl : c₀.length ≤ 1
    · rw [if_pos hl] at hmem
      have hcc : c = c₀ := by simpa using hmem
      subst hcc
      obtain ⟨c', hc', hR⟩ :=
        forall₂_mem_right (stateLE_foldl ctx (pendingRegs s) s) c h₀
      obtain ⟨p, hp, hp2⟩ := hw c' hc'
      cases c' with
      | nil => exact absurd hp (List.not_mem_nil p)
      | cons a tl =>
          cases hR with
          | @cons _ b _ l₂ hab htl =>
              have hl₂ : l₂ = [] := by
                cases l₂ with
                | nil => rfl
                | cons x xs => simp at hl
              subst hl₂
              have htl0 : tl = [] := by
                have := List.Forall₂.length_eq htl
                simpa using List.eq_nil_of_length_eq_zero (by simpa using this)
              subst htl0
              have hpa : p = a := by simpa using hp
              subst hpa
              refine ⟨rfl, ?_⟩
              intro q hq
              have hqb : q = b := by simpa using hq
              subst hqb
              exact hab.2 hp2
    · rw [if_neg hl] at hmem
      obtain ⟨p, _, rfl⟩ := List.mem_map.mp hmem
      refine ⟨rfl, ?_⟩
      intro q hq
      have hqp : q = (p.1, true) := by simpa using hq
      subst hqp
      rfl
  · show (flushState ctx s).fbbCount + 1 = s.fbbCount + 1
    rw [flushState_fbb]
  · show (flushState ctx s).ffoCount = s.ffoCount
    exact flushState_ffo ctx s
  · intro hnp
    show (flushState ctx s).out = s.out
    rw [flushState_noPending ctx hnp, splitClasses_out]

/-- Concrete instantiation of `c7_flush_basic_block_clears` at the pending
state left by two deferred moves. -/
theorem c7_flush_basic_block_clears_witness :
    (∀ c ∈ (flushBasicBlock ctx31 (run ctx31 evsC3)).classes,
      c.length = 1 ∧ ∀ p ∈ c, p.2 = true) ∧
    (flushBasicBlock ctx31 (run ctx31 evsC3)).fbbCount = 1 := by
  have h := c7_flush_basic_block_clears ctx31 (run ctx31 evsC3) (by decide)
  refine ⟨h.1, ?_⟩
  have h2 := h.2.1
  simpa using h2

/-- C8: merging two source-position tags: an unset current tag adopts the
incoming tag unconditionally, and between two set tags the merged tag marks
a statement boundary whenever either input does — a statement-boundary
marking is never dropped. -/
theorem c8_source_info_merge (cur entry : SourceInfo) :
    (cur.valid = false → SourceInfo.update cur entry = entry) ∧
    (cur.valid = true → entry.valid = true →
      (cur.statementQ = true ∨ entry.statementQ = true) →
      (SourceInfo.update cur entry).statementQ = true) := by
  constructor
  · intro h
    unfold SourceInfo.update
    rw [h]
    simp
  · intro h1 _ h3
    unfold SourceInfo.update
    rw [h1]
    by_cases hc : cur.statementQ = true
    · simp [hc]
    · rcases h3 with h3 | h3
      · exact absurd h3 hc
      · simp [hc, h3]

/-- Concrete instantiation of `c8_source_info_merge`: an unset tag adopts
the incoming expression tag (as the Nop unit tests do), and a statement
marking survives a merge with an expression tag. -/
theorem c8_source_info_merge_witness :
    SourceInfo.update invalidSI { pos := 3, stFlag := false } = { pos := 3, stFlag := false } ∧
    (SourceInfo.update { pos := 5, stFlag := false } { pos := 3, stFlag := true }).statementQ =
      true :=
  ⟨(c8_source_info_merge invalidSI { pos := 3, stFlag := false }).1 (by decide),
   (c8_source_info_merge { pos := 5, stFlag := false } { pos := 3, stFlag := true }).2
     (by decide) (by decide) (Or.inr (by decide))⟩

/-- C9: requesting a node operand below the opcode's declared operand count
returns the stored operand word; at or beyond the declared count it is a
contract violation (the `DCHECK`), modelled as `none` rather than a runtime
failure. -/
theorem c9_operand_contract (b : Bytecode) (ops : List Int) (sc : Nat) (si : SourceInfo)
    (i : Nat) :
    (i < numberOfOperands b →
      Node.operand { bytecode := b, operands := ops, scale := sc, sourceInfo := si } i =
        some (ops.getD i 0)) ∧
    (numberOfOperands b ≤ i →
      Node.operand { bytecode := b, operands := ops, scale := sc, sourceInfo := si } i =
        none) := by
  constructor
  · intro h
    show (if i < numberOfOperands b then some (ops.getD i 0) else none) = some (ops.getD i 0)
    rw [if_pos h]
  · intro h
    show (if i < numberOfOperands b then some (ops.getD i 0) else none) = none
    rw [if_neg (Nat.not_lt.mpr h)]

/-- Concrete instantiation of `c9_operand_contract` on a two-operand move
node: operand 0 is returned, operand 5 is out of contract. -/
theorem c9_operand_contract_witness :
    Node.operand (Node.mk Bytecode.Mov [7, 8] 1 invalidSI) 0 = some 7 ∧
    Node.operand (Node.mk Bytecode.Mov [7, 8] 1 invalidSI) 5 = none := by
  constructor
  · have h := (c9_operand_contract Bytecode.Mov [7, 8] 1 invalidSI 0).1 (by decide)
    simpa using h
  · exact (c9_operand_contract Bytecode.Mov [7, 8] 1 invalidSI 5).2 (by decide)

theorem prepOps_maybeReg_range (ctx : Ctx) (s : OptState) (n : Node) (i : Nat)
    (rest : List (Nat × OpTy)) (c : Nat) (hc : (n.operands.getD (i + 1) 0).toNat = c)
    (h0 : (c == 0) = false) (h1 : (c == 1) = false) :
    prepOps ctx s n ((i, OpTy.maybeReg) :: rest) =
      prepOps ctx (prepareRange ctx s (decodeReg ctx (n.operands.getD i 0)) c) n rest := by
  have e : prepOps ctx s n ((i, OpTy.maybeReg) :: rest) =
      (if ((n.operands.getD (i + 1) 0).toNat == 0) = true then prepOps ctx s n rest
       else if ((n.operands.getD (i + 1) 0).toNat == 1) = true then
         prepOps ctx (prepRegInput ctx s n i).1 (prepRegInput ctx s n i).2 rest
       else
         prepOps ctx
           (prepareRange ctx s (decodeReg ctx (n.operands.getD i 0))
             ((n.operands.getD (i + 1) 0).toNat)) n rest) := rfl
  rw [e, hc, h0, h1]
  simp

/-- C3: a general operation with a single-register read operand whose
equivalence class already has a materialized member gets the operand
rewritten in place to such a member — a non-temporary one whenever the
class offers one — and the operation is forwarded alone, with nothing
emitted to materialize the original operand register; the concrete
move-move-call scenario forwards exactly call(0, P1, 1). -/
theorem c3_operand_substituted (ctx : Ctx) (s : OptState) (fnId : Int) (t : Nat) (m : Reg)
    (h1 : matOf s (Reg.temp t) = false)
    (h2 : getSubstituteReg s (Reg.temp t) = some m)
    (h3 : accOutSilent ctx s = true) :
    ((write ctx s (callNode ctx fnId (Reg.temp t) 1)).out =
      s.out ++ [rewriteOperand ctx (callNode ctx fnId (Reg.temp t) 1) 1 m]) ∧
    ((matOthersNotAcc s (Reg.temp t)).any (fun x => !(Reg.isTemporaryReg x)) = true →
      Reg.isTemporaryReg m = false) ∧
    ((run ctx31 (evsC3 ++ [Ev.write (callNode ctx31 0 (Reg.temp 0) 1)])).out =
      [callNode ctx31 0 (Reg.param 1) 1]) := by
  refine ⟨?_, ?_, by decide⟩
  · have hdec : decodeReg ctx ((callNode ctx fnId (Reg.temp t) 1).operands.getD 1 0) =
        Reg.temp t := decode_toOperand_temp ctx t
    have hprep : prepRegInput ctx s (callNode ctx fnId (Reg.temp t) 1) 1 =
        (s, rewriteOperand ctx (callNode ctx fnId (Reg.temp t) 1) 1 m) := by
      have e : prepRegInput ctx s (callNode ctx fnId (Reg.temp t) 1) 1 =
          (match getSubstituteReg s
              (decodeReg ctx ((callNode ctx fnId (Reg.temp t) 1).operands.getD 1 0)) with
           | some m' => (s, rewriteOperand ctx (callNode ctx fnId (Reg.temp t) 1) 1 m')
           | none =>
               (materializeReg ctx s
                 (decodeReg ctx ((callNode ctx fnId (Reg.temp t) 1).operands.getD 1 0)),
                callNode ctx fnId (Reg.temp t) 1)) := rfl
      rw [e, hdec, h2]
    have hP : prepOps ctx s (callNode ctx fnId (Reg.temp t) 1)
        (opTypes Bytecode.CallJSRuntime).enum =
        prepOps ctx (prepRegInput ctx s (callNode ctx fnId (Reg.temp t) 1) 1).1
          (prepRegInput ctx s (callNode ctx fnId (Reg.temp t) 1) 1).2
          [(2, OpTy.regCount)] := rfl
    have hP2 : prepOps ctx s (callNode ctx fnId (Reg.temp t) 1)
        (opTypes Bytecode.CallJSRuntime).enum =
        (s, rewriteOperand ctx (callNode ctx fnId (Reg.temp t) 1) 1 m) := by
      rw [hP, hprep]
      rfl
    rw [write_call ctx s (callNode ctx fnId (Reg.temp t) 1) rfl]
    show (prepareOutputReg ctx
        (prepOps ctx s (callNode ctx fnId (Reg.temp t) 1)
          (opTypes Bytecode.CallJSRuntime).enum).1 Reg.acc).out ++
        [(prepOps ctx s (callNode ctx fnId (Reg.temp t) 1)
          (opTypes Bytecode.CallJSRuntime).enum).2] =
      s.out ++ [rewriteOperand ctx (callNode ctx fnId (Reg.temp t) 1) 1 m]
    rw [hP2]
    show (prepareOutputReg ctx s Reg.acc).out ++
        [rewriteOperand ctx (callNode ctx fnId (Reg.temp t) 1) 1 m] =
      s.out ++ [rewriteOperand ctx (callNode ctx fnId (Reg.temp t) 1) 1 m]
    rw [prepareOutputReg_out_silent ctx h3]
  · intro hany
    unfold getSubstituteReg at h2
    rw [if_neg (by rw [h1]; exact Bool.false_ne_true)] at h2
    cases hfind : (matOthersNotAcc s (Reg.temp t)).find? (fun x => !(Reg.isTemporaryReg x)) with
    | some x =>
        rw [hfind] at h2
        cases h2
        have hx := List.find?_some hfind
        simpa using hx
    | none =>
        exfalso
        have hall := List.find?_eq_none.mp hfind
        obtain ⟨x, hx, hpx⟩ := List.any_eq_true.mp hany
        exact hall x hx hpx

/-- Concrete instantiation of `c3_operand_substituted` at the state left by
the two deferred moves: the call's argument is substituted with the
materialized non-temporary parameter. -/
theorem c3_operand_substituted_witness :
    (write ctx31 (run ctx31 evsC3) (callNode ctx31 0 (Reg.temp 0) 1)).out =
      (run ctx31 evsC3).out ++
        [rewriteOperand ctx31 (callNode ctx31 0 (Reg.temp 0) 1) 1 (Reg.param 1)] ∧
    Reg.isTemporaryReg (Reg.param 1) = false := by
  have h := c3_operand_substituted ctx31 (run ctx31 evsC3) 0 0 (Reg.param 1)
    (by decide) (by decide) (by decide)
  exact ⟨h.1, h.2.1 (by decide)⟩

/-- C4, original-program-order reading refuted: in the trace allocate(T0);
allocate(T1); move(P1 → T1); load-immediate(3); store-accumulator-to(T0);
call(0, range(T0, len 2), argc 2), the deferred move into T1 precedes the
deferred store into T0 in program order, yet the range flush forwards
Star(T0) before Mov(P1, T1): the slots are forced in range-slot order,
here the reverse of the program order of the outstanding deferred
writes. -/
theorem c4_counterexample :
    (run ctx31 evsC4x).out =
      [ldaSmiNode 3, starNode ctx31 (Reg.temp 0),
        movNodeC ctx31 (Reg.param 1) (Reg.temp 1), callNode ctx31 0 (Reg.temp 0) 2] ∧
    (run ctx31 evsC4x).out ≠
      [ldaSmiNode 3, movNodeC ctx31 (Reg.param 1) (Reg.temp 1),
        starNode ctx31 (Reg.temp 0), callNode ctx31 0 (Reg.temp 0) 2] := by
  refine ⟨by decide, by decide⟩

/-- C4 (amended): an operation with a register-range operand (argument
count at least two) has no operand substituted — the node is forwarded
with its operands unchanged — after every register of the range has been
forced to a materialized value, the range slots being flushed one by one
in range-slot order (lowest slot first), which is not necessarily the
original program order of the deferred writes; the concrete scenario
forwards all four instructions with the range operand untouched. -/
theorem c4_range_materialized (ctx : Ctx) (s : OptState) (fnId : Int) (t c : Nat)
    (h1 : 2 ≤ c)
    (h2 : ∀ k, k < c → ((classOf s (Reg.temp (t + k))).any (fun p => p.2)) = true)
    (h3 : accOutSilent ctx (prepareRange ctx s (Reg.temp t) c) = true) :
    ((write ctx s (callNode ctx fnId (Reg.temp t) (c : Int))).out =
      (prepareRange ctx s (Reg.temp t) c).out ++ [callNode ctx fnId (Reg.temp t) (c : Int)]) ∧
    (∃ l, (prepareRange ctx s (Reg.temp t) c).out = s.out ++ l) ∧
    (∀ k, k < c → matOf (prepareRange ctx s (Reg.temp t) c) (Reg.temp (t + k)) = true) ∧
    (prepareRange ctx s (Reg.temp t) c =
      (List.range c).foldl (fun st k => materializeReg ctx st (Reg.temp (t + k))) s) ∧
    ((run ctx31 (evsC4 ++ [Ev.write (callNode ctx31 0 (Reg.temp 0) 2)])).out =
      [ldaSmiNode 3, starNode ctx31 (Reg.temp 0), movNodeC ctx31 (Reg.param 1) (Reg.temp 1),
        callNode ctx31 0 (Reg.temp 0) 2]) := by
  have hfk : ∀ k : Nat,
      decodeReg ctx (Reg.toOperand ctx (Reg.temp t) + Int.ofNat k) = Reg.temp (t + k) := by
    intro k
    have he : Reg.toOperand ctx (Reg.temp t) + Int.ofNat k =
        Reg.toOperand ctx (Reg.temp (t + k)) := by
      show (ctx.localCount : Int) + (t : Int) + Int.ofNat k =
        (ctx.localCount : Int) + ((t + k : Nat) : Int)
      simp only [Int.ofNat_eq_coe]
      omega
    rw [he, decode_toOperand_temp]
  refine ⟨?_, ?_, ?_, ?_, by decide⟩
  · have hcnt : ((callNode ctx fnId (Reg.temp t) (c : Int)).operands.getD 2 0).toNat = c := by
      show ((c : Int)).toNat = c
      omega
    have hc0 : (c == 0) = false := by
      rw [beq_eq_false_iff_ne]
      omega
    have hc1 : (c == 1) = false := by
      rw [beq_eq_false_iff_ne]
      omega
    have hdec : decodeReg ctx ((callNode ctx fnId (Reg.temp t) (c : Int)).operands.getD 1 0) =
        Reg.temp t := decode_toOperand_temp ctx t
    have hP : prepOps ctx s (callNode ctx fnId (Reg.temp t) (c : Int))
        (opTypes Bytecode.CallJSRuntime).enum =
        (prepareRange ctx s (Reg.temp t) c, callNode ctx fnId (Reg.temp t) (c : Int)) := by
      have e0 : prepOps ctx s (callNode ctx fnId (Reg.temp t) (c : Int))
          (opTypes Bytecode.CallJSRuntime).enum =
          prepOps ctx s (callNode ctx fnId (Reg.temp t) (c : Int))
            [(1, OpTy.maybeReg), (2, OpTy.regCount)] := rfl
      rw [e0, prepOps_maybeReg_range ctx s (callNode ctx fnId (Reg.temp t) (c : Int)) 1
        [(2, OpTy.regCount)] c hcnt hc0 hc1, hdec]
      rfl
    rw [write_call ctx s (callNode ctx fnId (Reg.temp t) (c : Int)) rfl]
    show (prepareOutputReg ctx
        (prepOps ctx s (callNode ctx fnId (Reg.temp t) (c : Int))
          (opTypes Bytecode.CallJSRuntime).enum).1 Reg.acc).out ++
        [(prepOps ctx s (callNode ctx fnId (Reg.temp t) (c : Int))
          (opTypes Bytecode.CallJSRuntime).enum).2] =
      (prepareRange ctx s (Reg.temp t) c).out ++ [callNode ctx fnId (Reg.temp t) (c : Int)]
    rw [hP]
    show (prepareOutputReg ctx (prepareRange ctx s (Reg.temp t) c) Reg.acc).out ++
        [callNode ctx fnId (Reg.temp t) (c : Int)] =
      (prepareRange ctx s (Reg.temp t) c).out ++ [callNode ctx fnId (Reg.temp t) (c : Int)]
    rw [prepareOutputReg_out_silent ctx h3]
  · show ∃ l, ((List.range c).foldl
        (fun st k => materializeReg ctx st
          (decodeReg ctx (Reg.toOperand ctx (Reg.temp t) + Int.ofNat k))) s).out = s.out ++ l
    exact foldl_mat_out_extends ctx
      (fun k : Nat => decodeReg ctx (Reg.toOperand ctx (Reg.temp t) + Int.ofNat k))
      (List.range c) s
  · intro k hk
    have hall : ∀ a ∈ List.range c,
        (classOf s (decodeReg ctx (Reg.toOperand ctx (Reg.temp t) + Int.ofNat a))).any
          (fun p => p.2) = true := by
      intro a ha
      rw [hfk a]
      exact h2 a (List.mem_range.mp ha)
    have hm := foldl_mat_all ctx
      (fun k : Nat => decodeReg ctx (Reg.toOperand ctx (Reg.temp t) + Int.ofNat k))
      (List.range c) s hall k (List.mem_range.mpr hk)
    show matOf ((List.range c).foldl
        (fun st k => materializeReg ctx st
          (decodeReg ctx (Reg.toOperand ctx (Reg.temp t) + Int.ofNat k))) s)
        (Reg.temp (t + k)) = true
    rw [← hfk k]
    exact hm
  · show (List.range c).foldl
        (fun st k => materializeReg ctx st
          (decodeReg ctx (Reg.toOperand ctx (Reg.temp t) + Int.ofNat k))) s =
      (List.range c).foldl (fun st k => materializeReg ctx st (Reg.temp (t + k))) s
    simp only [hfk]

/-- Concrete instantiation of `c4_range_materialized` at the state left by
the immediate load, deferred store and deferred move of the range
scenario. -/
theorem c4_range_materialized_witness :
    (write ctx31 (run ctx31 evsC4) (callNode ctx31 0 (Reg.temp 0) 2)).out =
      (prepareRange ctx31 (run ctx31 evsC4) (Reg.temp 0) 2).out ++
        [callNode ctx31 0 (Reg.temp 0) 2] ∧
    matOf (prepareRange ctx31 (run ctx31 evsC4) (Reg.temp 0) 2) (Reg.temp 1) = true := by
  have h := c4_range_materialized ctx31 (run ctx31 evsC4) 0 0 2 (by omega)
    (by decide) (by decide)
  exact ⟨h.1, h.2.2.1 1 (by omega)⟩

/-- C10: every optimizer FlushForOffset invokes the downstream stage's
FlushForOffset exactly once and leaves its FlushBasicBlock count alone, and
symmetrically for FlushBasicBlock — in any state, including the initial one
where no Write has occurred at all. -/
theorem c10_flush_pass_through (ctx : Ctx) (s : OptState) :
    (flushForOffset ctx s).2.ffoCount = s.ffoCount + 1 ∧
    (flushForOffset ctx s).2.fbbCount = s.fbbCount ∧
    (flushBasicBlock ctx s).fbbCount = s.fbbCount + 1 ∧
    (flushBasicBlock ctx s).ffoCount = s.ffoCount ∧
    (flushForOffset ctx (initState ctx)).2.ffoCount = 1 ∧
    (flushBasicBlock ctx (initState ctx)).fbbCount = 1 := by
  refine ⟨?_, ?_, ?_, ?_, ?_, ?_⟩
  · show (flushState ctx s).ffoCount + 1 = s.ffoCount + 1
    rw [flushState_ffo]
  · show (flushState ctx s).fbbCount = s.fbbCount
    exact flushState_fbb ctx s
  · show (flushState ctx s).fbbCount + 1 = s.fbbCount + 1
    rw [flushState_fbb]
  · show (flushState ctx s).ffoCount = s.ffoCount
    exact flushState_ffo ctx s
  · show (flushState ctx (initState ctx)).ffoCount + 1 = 1
    rw [flushState_ffo]
    rfl
  · show (flushState ctx (initState ctx)).fbbCount + 1 = 1
    rw [flushState_fbb]
    rfl

end BRO
